import Mathlib

/-!
# Verification of the `rcv.report` report pipeline (tabulator, candidate map, readers)

A shallow embedding of `src/report_pipeline` in Lean 4. Machine integers
(`u32`, `usize`) are modelled as `Nat`: the counts involved are ballot counts,
far below `2^32`, and no source operation relies on wrap-around. Rust
`BTreeMap`/`BTreeSet` are modelled as key-sorted association lists, and
`HashSet`/`HashMap` as lists used only through membership/lookup. Code paths
that panic in the source (`.expect`, `.unwrap()`) are modelled with `Option` /
`Except`, with `none` / `.error` standing for the panic.
-/

namespace RcvReport

/-- Modelled from the spec: `CandidateId` (missing `model/election.rs`, spec
section 3) — a dense non-negative integer assigned in first-encounter order. -/
abbrev CandidateId := Nat

/-- Modelled from the spec: `Choice` (missing `model/election.rs`, spec
section 3) — three variants `Vote(CandidateId)`, `Undervote`, `Overvote`. -/
inductive Choice where
  | Vote : CandidateId → Choice
  | Undervote : Choice
  | Overvote : Choice
deriving DecidableEq, Repr

/-- Modelled from the spec: the total order on `Choice` used by the tabulator's
`BTreeMap` keys (spec section 4.A: any total order suffices; outputs do not
depend on the specific choice). We order `Vote` (by candidate id) before
`Undervote` before `Overvote`, matching the declaration order in section 3,
via a numeric tag. -/
def Choice.tag : Choice → Nat
  | .Vote _ => 0
  | .Undervote => 1
  | .Overvote => 2

/-- The candidate id under a `Vote`, `0` otherwise; only used to order
`Vote` keys among themselves. -/
def Choice.cid : Choice → Nat
  | .Vote c => c
  | .Undervote => 0
  | .Overvote => 0

def Choice.ltb (a b : Choice) : Bool :=
  a.tag < b.tag || (a.tag = b.tag && a.cid < b.cid)

/-- Modelled from the spec: `CandidateType` (missing `model/election.rs`, spec
section 3): `Regular | WriteIn | QualifiedWriteIn`. -/
inductive CandidateType where
  | Regular : CandidateType
  | WriteIn : CandidateType
  | QualifiedWriteIn : CandidateType
deriving DecidableEq, Repr

/-- Modelled from the spec: `Candidate` (missing `model/election.rs`, spec
section 3): a name and a kind. -/
structure Candidate where
  name : String
  kind : CandidateType
deriving DecidableEq, Repr

/-- Modelled from the spec: `Candidate::new` (missing `model/election.rs`). -/
def Candidate.new (name : String) (kind : CandidateType) : Candidate :=
  { name := name, kind := kind }

/-- Modelled from the spec: `NormalizedBallot` (missing `model/election.rs`,
spec section 3): an id and a positionally ranked sequence of choices. -/
structure NormalizedBallot where
  id : String
  choices : List Choice
deriving DecidableEq, Repr

/-- Modelled from the spec: `NormalizedBallot::top_vote` — the first choice,
or `Undervote` if the ballot is empty (spec section 3). -/
def NormalizedBallot.top_vote (b : NormalizedBallot) : Choice :=
  b.choices.headD Choice.Undervote

/-- Modelled from the spec: `NormalizedBallot::pop_top_vote` — the ballot with
its first choice removed (spec section 3). -/
def NormalizedBallot.pop_top_vote (b : NormalizedBallot) : NormalizedBallot :=
  { b with choices := b.choices.drop 1 }

/-- Modelled from the spec: `Ballot` (missing `model/election.rs`, spec
section 3) — same shape as `NormalizedBallot`. -/
structure Ballot where
  id : String
  choices : List Choice
deriving DecidableEq, Repr

/-- Modelled from the spec: `Ballot::new` (missing `model/election.rs`). -/
def Ballot.new (id : String) (choices : List Choice) : Ballot :=
  { id := id, choices := choices }

/-- Modelled from the spec: raw `Election` (missing `model/election.rs`, spec
section 3): candidates plus ballots. -/
structure Election where
  candidates : List Candidate
  ballots : List Ballot
deriving DecidableEq, Repr

/-- Modelled from the spec: `Election::new` (missing `model/election.rs`). -/
def Election.new (candidates : List Candidate) (ballots : List Ballot) : Election :=
  { candidates := candidates, ballots := ballots }

/-- Modelled from the spec: `TabulationOptions` (missing `model/metadata.rs`,
spec section 6): carries `nyc_style : Option<bool>`. -/
structure TabulationOptions where
  nyc_style : Option Bool
deriving DecidableEq, Repr

/-- Modelled from the spec: `Allocatee` (missing `tabulator/schema.rs`, spec
section 3): `Candidate(CandidateId) | Exhausted`. -/
inductive Allocatee where
  | Candidate : CandidateId → Allocatee
  | Exhausted : Allocatee
deriving DecidableEq, Repr

/-- Modelled from the spec: `Allocatee::from_choice` (missing
`tabulator/schema.rs`): `Vote(c)` maps to `Candidate(c)`; `Undervote` and
`Overvote` land in `Exhausted` (spec sections 3 and 4.E step 3). -/
def Allocatee.from_choice : Choice → Allocatee
  | .Vote c => .Candidate c
  | _ => .Exhausted

/-- Modelled from the spec: the derived order on `Allocatee` (missing
`tabulator/schema.rs`), following the declaration order of section 3:
`Candidate` (by id) before `Exhausted`. -/
def Allocatee.ltb : Allocatee → Allocatee → Bool
  | .Candidate a, .Candidate b => a < b
  | .Candidate _, .Exhausted => true
  | _, _ => false

/-- Modelled from the spec: `Transfer` (missing `tabulator/schema.rs`, spec
section 3): `{ from, to, count }`. The source field `from` is a Lean keyword,
and `to` is a reserved Lean token, so they are named `from_` and `to_` here. -/
structure Transfer where
  from_ : CandidateId
  to_ : Allocatee
  count : Nat
deriving DecidableEq, Repr

/-- Modelled from the spec: the derived lexicographic order on `Transfer`
(missing `tabulator/schema.rs`), by field declaration order. -/
def Transfer.ltb (a b : Transfer) : Bool :=
  if a.from_ ≠ b.from_ then a.from_ < b.from_
  else if a.to_ ≠ b.to_ then Allocatee.ltb a.to_ b.to_
  else a.count < b.count

/-- Modelled from the spec: `TabulatorAllocation` (missing
`tabulator/schema.rs`, spec section 3): one `{allocatee, votes}` entry. -/
structure TabulatorAllocation where
  allocatee : Allocatee
  votes : Nat
deriving DecidableEq, Repr

/-- Modelled from the spec: `TabulatorRound` (missing `tabulator/schema.rs`,
spec section 3). -/
structure TabulatorRound where
  allocations : List TabulatorAllocation
  undervote : Nat
  overvote : Nat
  continuing_ballots : Nat
  transfers : List Transfer
deriving DecidableEq, Repr

/-! ## Association-list models of the ordered containers -/

/-- Lookup in an association list (model of `BTreeMap::get` / `HashMap::get`;
scans for the key, so it is order-insensitive). -/
def sortedLookup {α β : Type} [DecidableEq α] (k : α) : List (α × β) → Option β
  | [] => none
  | (k', v') :: rest => if k = k' then some v' else sortedLookup k rest

/-- Remove a key's entry from an association list (model of
`BTreeMap::remove`, dropping the first — in a well-formed map, only —
binding). -/
def sortedRemove {α β : Type} [DecidableEq α] (k : α) : List (α × β) → List (α × β)
  | [] => []
  | (k', v') :: rest => if k = k' then rest else (k', v') :: sortedRemove k rest

/-- Insert into a key-sorted association list, replacing an existing binding
(model of `BTreeMap::insert` for the candidate-vote map, keyed by
`CandidateId`). -/
def amInsert (k : CandidateId) (v : Nat) : List (CandidateId × Nat) → List (CandidateId × Nat)
  | [] => [(k, v)]
  | (k', v') :: rest =>
    if k < k' then (k, v) :: (k', v') :: rest
    else if k' < k then (k', v') :: amInsert k v rest
    else (k, v) :: rest

/-- Model of `candidate_ballots.entry(choice).or_insert_with(Vec::new).push(ballot)`
on the `BTreeMap<Choice, Vec<NormalizedBallot>>`: append the ballot to the
bucket for `k`, creating the bucket at its sorted position if absent. -/
def bmapPush (k : Choice) (b : NormalizedBallot) :
    List (Choice × List NormalizedBallot) → List (Choice × List NormalizedBallot)
  | [] => [(k, [b])]
  | (k', l) :: rest =>
    if Choice.ltb k k' then (k, [b]) :: (k', l) :: rest
    else if Choice.ltb k' k then (k', l) :: bmapPush k b rest
    else (k', l ++ [b]) :: rest

/-- Model of `BTreeSet<CandidateId>::insert`: sorted insertion without
duplicates. -/
def csetInsert (c : CandidateId) : List CandidateId → List CandidateId
  | [] => [c]
  | c' :: rest =>
    if c < c' then c :: c' :: rest
    else if c' < c then c' :: csetInsert c rest
    else c' :: rest

/-- Model of `BTreeSet<Transfer>::insert`: sorted insertion without
duplicates, ordered by the derived `Transfer` order. -/
def tsetInsert (t : Transfer) : List Transfer → List Transfer
  | [] => [t]
  | t' :: rest =>
    if Transfer.ltb t t' then t :: t' :: rest
    else if Transfer.ltb t' t then t' :: tsetInsert t rest
    else t' :: rest

/-- Model of `transfer_map.entry(a).or_default() += 1` on the
`BTreeMap<Allocatee, u32>`. -/
def tmapIncr (k : Allocatee) : List (Allocatee × Nat) → List (Allocatee × Nat)
  | [] => [(k, 1)]
  | (k', n) :: rest =>
    if Allocatee.ltb k k' then (k, 1) :: (k', n) :: rest
    else if Allocatee.ltb k' k then (k', n) :: tmapIncr k rest
    else (k', n + 1) :: rest

/-! ## `Allocations` (tabulator/mod.rs lines 10–55) -/

/-- `Allocations`: the per-round vote counts (tabulator/mod.rs lines 10–13). -/
structure Allocations where
  exhausted : Nat
  votes : List (CandidateId × Nat)
deriving DecidableEq, Repr

/-- One step of the stable descending insertion sort modelling Rust's stable
`votes.sort_by(|a, b| (b.1).cmp(&a.1))`: an element passes items with
strictly more votes and stops in front of the first item with at most as
many, so elements with equal vote counts keep their original order. -/
def insertDesc (x : CandidateId × Nat) : List (CandidateId × Nat) → List (CandidateId × Nat)
  | [] => [x]
  | y :: ys => if x.2 ≥ y.2 then x :: y :: ys else y :: insertDesc x ys

/-- Stable sort, descending by vote count (tabulator/mod.rs line 18). -/
def sortByVotesDesc : List (CandidateId × Nat) → List (CandidateId × Nat)
  | [] => []
  | x :: xs => insertDesc x (sortByVotesDesc xs)

/-- `Allocations::new` (tabulator/mod.rs lines 16–21): sort descending by
number of votes. -/
def Allocations.new (votes : List (CandidateId × Nat)) (exhausted : Nat) : Allocations :=
  { votes := sortByVotesDesc votes, exhausted := exhausted }

/-- `Allocations::continuing` (tabulator/mod.rs lines 52–54). -/
def Allocations.continuing (a : Allocations) : Nat :=
  (a.votes.map Prod.snd).sum

/-- `Allocations::into_vec` (tabulator/mod.rs lines 36–49): candidate entries
in sorted order, then the `Exhausted` entry last. -/
def Allocations.into_vec (a : Allocations) : List TabulatorAllocation :=
  a.votes.map (fun p => { allocatee := Allocatee.Candidate p.1, votes := p.2 })
    ++ [{ allocatee := Allocatee.Exhausted, votes := a.exhausted }]

/-! ## `TabulatorState` (tabulator/mod.rs lines 57–263) -/

/-- `TabulatorState` (tabulator/mod.rs lines 57–68). The source `eliminated`
field is a `HashSet<CandidateId>`; it is modelled as a list used only through
`contains`, so its order never matters (see the determinism theorem). -/
structure TabulatorState where
  candidate_ballots : List (Choice × List NormalizedBallot)
  transfers : List Transfer
  eliminated : List CandidateId
deriving DecidableEq, Repr

/-- `TabulatorState::new` (tabulator/mod.rs lines 101–115): bucket every
ballot by its top vote, in ballot order. -/
def TabulatorState.new (ballots : List NormalizedBallot) : TabulatorState :=
  { candidate_ballots := ballots.foldl (fun m b => bmapPush b.top_vote b m) []
    transfers := []
    eliminated := [] }

/-- The loop body of `TabulatorState::allocations` (tabulator/mod.rs lines
126–149): accumulate the candidate-vote map and the exhausted count over one
`(choice, ballots)` entry. -/
def allocStep (opts : TabulationOptions) (round_number : Nat)
    (acc : List (CandidateId × Nat) × Nat) (e : Choice × List NormalizedBallot) :
    List (CandidateId × Nat) × Nat :=
  let count := e.2.length
  match e.1 with
  | Choice.Undervote =>
    if opts.nyc_style.getD false = true ∧ round_number = 0 then acc
    else (acc.1, acc.2 + count)
  | Choice.Overvote =>
    if opts.nyc_style.getD false = true ∧ round_number = 0 then acc
    else (acc.1, acc.2 + count)
  | Choice.Vote c => (amInsert c count acc.1, acc.2)

/-- `TabulatorState::allocations` (tabulator/mod.rs lines 119–154). -/
def TabulatorState.allocations (s : TabulatorState) (opts : TabulationOptions)
    (round_number : Nat) : Allocations :=
  let p := s.candidate_ballots.foldl (allocStep opts round_number) ([], 0)
  Allocations.new p.1 p.2

/-- `TabulatorState::as_round` (tabulator/mod.rs lines 74–99). -/
def TabulatorState.as_round (s : TabulatorState) (opts : TabulationOptions)
    (round_number : Nat) : TabulatorRound :=
  let allocations := s.allocations opts round_number
  { allocations := allocations.into_vec
    undervote := ((sortedLookup Choice.Undervote s.candidate_ballots).map List.length).getD 0
    overvote := ((sortedLookup Choice.Overvote s.candidate_ballots).map List.length).getD 0
    continuing_ballots := allocations.continuing
    transfers := s.transfers }

/-- The prefix scan of `do_elimination` (tabulator/mod.rs lines 165–173):
walk the descending-sorted allocations, subtracting each candidate's votes
from `remaining`; stop after the first index `i > 0` whose own votes strictly
exceed the votes remaining after it. The returned list is the unconsumed
suffix (the iterator `ai` after the `for` loop). -/
def elimScan : List (CandidateId × Nat) → Nat → Nat → List (CandidateId × Nat)
  | [], _, _ => []
  | (_, v) :: rest, remaining, i =>
    let remaining' := remaining - v
    if v > remaining' ∧ i > 0 then rest
    else elimScan rest remaining' (i + 1)

/-- The batch part of `candidates_to_eliminate` (tabulator/mod.rs line 175):
the unconsumed suffix collected into a `BTreeSet`. -/
def batch_to_eliminate (a : Allocations) : List CandidateId :=
  ((elimScan a.votes a.continuing 0).map Prod.fst).foldl (fun s c => csetInsert c s) []

/-- `candidates_to_eliminate` (tabulator/mod.rs lines 164–189), including the
tie-break fallback at lines 177–188: if the batch rule selects nobody and the
allocations are non-empty, eliminate the last candidate in sorted order. -/
def candidates_to_eliminate (a : Allocations) : List CandidateId :=
  let to_eliminate := batch_to_eliminate a
  if to_eliminate = [] ∧ a.votes ≠ [] then
    match a.votes.getLast? with
    | some p => [p.1]
    | none => []
  else to_eliminate

/-- The ballot-reassignment loop of `do_elimination` (tabulator/mod.rs lines
210–221) on the choice list: pop the top choice, then keep popping while the
new top is a vote for an eliminated candidate; return the remaining choices
and the choice the loop broke on. -/
def popLoop (eliminated : List CandidateId) : List Choice → List Choice × Choice
  | [] => ([], Choice.Undervote)
  | _ :: rest =>
    match rest.headD Choice.Undervote with
    | Choice.Vote c =>
      if eliminated.contains c then popLoop eliminated rest else (rest, Choice.Vote c)
    | Choice.Undervote => (rest, Choice.Undervote)
    | Choice.Overvote => (rest, Choice.Overvote)

/-- The reassignment loop on a whole ballot: `pop_top_vote`/`top_vote` only
touch `choices`, so the ballot id is carried through unchanged. -/
def popUntil (eliminated : List CandidateId) (b : NormalizedBallot) :
    NormalizedBallot × Choice :=
  let p := popLoop eliminated b.choices
  ({ b with choices := p.1 }, p.2)

/-- One iteration of the per-ballot loop (tabulator/mod.rs lines 207–231):
reassign the ballot and tally the transfer destination. -/
def reassignStep (eliminated : List CandidateId)
    (acc : List (Choice × List NormalizedBallot) × List (Allocatee × Nat))
    (b : NormalizedBallot) :
    List (Choice × List NormalizedBallot) × List (Allocatee × Nat) :=
  let p := popUntil eliminated b
  (bmapPush p.2 p.1 acc.1, tmapIncr (Allocatee.from_choice p.2) acc.2)

/-- Reallocate the ballots of one eliminated candidate (tabulator/mod.rs
lines 198–231): remove the candidate's bucket (`.remove(..).unwrap()`, whose
panic on a missing bucket is modelled by `none`), then push each ballot into
its new bucket while tallying the per-destination transfer map. -/
def processOne (eliminated : List CandidateId)
    (cb : List (Choice × List NormalizedBallot)) (to_eliminate : CandidateId) :
    Option (List (Choice × List NormalizedBallot) × List (Allocatee × Nat)) :=
  match sortedLookup (Choice.Vote to_eliminate) cb with
  | none => none
  | some ballots =>
    some (ballots.foldl (reassignStep eliminated)
      (sortedRemove (Choice.Vote to_eliminate) cb, []))

/-- The sort key for the final transfer sort (tabulator/mod.rs lines
250–255): `Exhausted` keys as `0`; a candidate keys as the negated size of
its bucket. The source unwraps the bucket lookup (it panics when the bucket
is missing); `do_elimination` below guards that lookup, so the default `[]`
here is never what the guard lets through. -/
def transferKey (cb : List (Choice × List NormalizedBallot)) (t : Transfer) : Int :=
  match t.to_ with
  | Allocatee.Exhausted => 0
  | Allocatee.Candidate c => -(((sortedLookup (Choice.Vote c) cb).getD []).length : Int)

/-- One step of the stable ascending insertion sort modelling Rust's stable
`transfers.sort_by_key` (tabulator/mod.rs lines 249–255): an element passes
items with strictly smaller keys, so equal-key elements keep their
`BTreeSet` order. -/
def insertByKey (cb : List (Choice × List NormalizedBallot)) (t : Transfer) :
    List Transfer → List Transfer
  | [] => [t]
  | u :: us =>
    if transferKey cb t ≤ transferKey cb u then t :: u :: us
    else u :: insertByKey cb t us

/-- Stable sort of the transfer list by `transferKey`. -/
def sortTransfers (cb : List (Choice × List NormalizedBallot)) :
    List Transfer → List Transfer
  | [] => []
  | t :: ts => insertByKey cb t (sortTransfers cb ts)

/-- One iteration of the per-eliminated-candidate loop (tabulator/mod.rs
lines 198–244): reallocate one candidate's ballots and append its transfer
records to the `BTreeSet`. -/
def elimAccStep (eliminated : List CandidateId)
    (acc : Option (List (Choice × List NormalizedBallot) × List Transfer))
    (c : CandidateId) :
    Option (List (Choice × List NormalizedBallot) × List Transfer) :=
  match acc with
  | none => none
  | some q =>
    match processOne eliminated q.1 c with
    | none => none
    | some r =>
      some (r.1, r.2.foldl
        (fun ts p => tsetInsert { from_ := c, to_ := p.1, count := p.2 } ts) q.2)

/-- Whether every transfer's destination bucket is present — the condition
under which the source's transfer-sort-key `.unwrap()` (tabulator/mod.rs
line 253) cannot panic. -/
def transfersGuard (cb : List (Choice × List NormalizedBallot)) (ts : List Transfer) : Bool :=
  ts.all (fun t =>
    match t.to_ with
    | Allocatee.Exhausted => true
    | Allocatee.Candidate c => (sortedLookup (Choice.Vote c) cb).isSome)

/-- `TabulatorState::do_elimination` (tabulator/mod.rs lines 156–262).
`none` models a panic: either a `.remove(..).unwrap()` on a missing bucket,
or the `.unwrap()` inside the transfer sort key. -/
def TabulatorState.do_elimination (s : TabulatorState) (opts : TabulationOptions)
    (round_number : Nat) : Option TabulatorState :=
  let allocations := s.allocations opts round_number
  let cte := candidates_to_eliminate allocations
  let eliminated := s.eliminated ++ cte
  let step := cte.foldl (elimAccStep eliminated)
    (some (s.candidate_ballots, ([] : List Transfer)))
  match step with
  | none => none
  | some q =>
    if transfersGuard q.1 q.2 then
      some { candidate_ballots := q.1
             transfers := sortTransfers q.1 q.2
             eliminated := eliminated }
    else none

/-- `max_rounds` (tabulator/mod.rs line 272). -/
def max_rounds : Nat := 1000

/-- The `loop` of `tabulate` (tabulator/mod.rs lines 274–298), returning the
visited `(state, round_number)` pairs. `gas` is a structural counter for the
loop, which the source bounds by `round_number >= max_rounds`; `tabulate`
passes `max_rounds + 1`, which the invariant `gas + round_number =
max_rounds + 1` keeps strictly positive at every call, so the `gas = 0`
branch is unreachable. -/
def tabAux (opts : TabulationOptions) :
    Nat → TabulatorState → Nat → Option (List (TabulatorState × Nat))
  | 0, _, _ => none
  | gas + 1, s, round_number =>
    let allocations := s.allocations opts round_number
    if allocations.votes.length ≤ 2 then some [(s, round_number)]
    else if round_number ≥ max_rounds then some [(s, round_number)]
    else
      match s.do_elimination opts round_number with
      | none => none
      | some s' =>
        match tabAux opts gas s' (round_number + 1) with
        | none => none
        | some rest => some ((s, round_number) :: rest)

/-- The `(state, round_number)` trace of `tabulate` (tabulator/mod.rs lines
265–301) from the initial state. -/
def tabPairs (ballots : List NormalizedBallot) (opts : TabulationOptions) :
    Option (List (TabulatorState × Nat)) :=
  tabAux opts (max_rounds + 1) (TabulatorState.new ballots) 0

/-- `tabulate` (tabulator/mod.rs lines 265–301): the serialized rounds, one
per visited state. `none` models a panic inside `do_elimination`. -/
def tabulate (ballots : List NormalizedBallot) (opts : TabulationOptions) :
    Option (List TabulatorRound) :=
  (tabPairs ballots opts).map (List.map (fun p => TabulatorState.as_round p.1 opts p.2))


/-! ## `CandidateMap` (formats/common/candidate_map.rs) -/

/-- Model of `HashMap::insert` on an association list: replace the first
binding for the key, or append a new one. Iteration order is never used. -/
def hmInsert {k : Type} [DecidableEq k] (x : k) (v : CandidateId) :
    List (k × CandidateId) → List (k × CandidateId)
  | [] => [(x, v)]
  | (x', v') :: rest => if x = x' then (x, v) :: rest else (x', v') :: hmInsert x v rest

/-- `CandidateMap` (candidate_map.rs lines 6–11), generic over the external
candidate id type. -/
structure CandidateMap (k : Type) where
  id_to_index : List (k × CandidateId)
  candidates : List Candidate
deriving DecidableEq, Repr

/-- `CandidateMap::new` (candidate_map.rs lines 14–19). -/
def CandidateMap.new (k : Type) : CandidateMap k :=
  { id_to_index := [], candidates := [] }

/-- `CandidateMap::add` (candidate_map.rs lines 21–27). -/
def CandidateMap.add {k : Type} [DecidableEq k] (m : CandidateMap k)
    (external_candidate_id : k) (candidate : Candidate) : CandidateMap k :=
  { id_to_index := hmInsert external_candidate_id m.candidates.length m.id_to_index
    candidates := m.candidates ++ [candidate] }

/-- `CandidateMap::id_to_choice` (candidate_map.rs lines 51–58); `none`
models the `.expect` panic on an unknown external id. -/
def CandidateMap.id_to_choice {k : Type} [DecidableEq k] (m : CandidateMap k)
    (external_candidate_id : k) : Option Choice :=
  (sortedLookup external_candidate_id m.id_to_index).map Choice.Vote

/-- `CandidateMap::add_id_to_choice` (candidate_map.rs lines 29–49): if the
external id is unknown, either alias it to an existing candidate with the
same name or add a fresh candidate; then look the id up. Returns the updated
map together with the returned `Choice`. -/
def CandidateMap.add_id_to_choice {k : Type} [DecidableEq k] (m : CandidateMap k)
    (external_candidate_id : k) (candidate : Candidate) : CandidateMap k × Option Choice :=
  let m' :=
    if (sortedLookup external_candidate_id m.id_to_index).isSome then m
    else
      match m.candidates.findIdx? (fun c => c.name == candidate.name) with
      | some existing_index =>
        { m with id_to_index := hmInsert external_candidate_id existing_index m.id_to_index }
      | none => m.add external_candidate_id candidate
  (m', m'.id_to_choice external_candidate_id)

/-! ## Format readers: the file-open error paths (claim C8)

Only the open-failure control flow is relevant here; the per-record parsing
that runs on a successfully opened file (CSV/regex/XLSX decoding) is
abstracted by a `process` function over an abstract file content `f`. -/

/-- `mpls_ballot_reader` (formats/us_mn_mpls/mod.rs lines 46–53): the reader
opens its CSV file with `ReaderBuilder::from_path(..).expect(..)`, so an
absent or unreadable file is a panic, modelled by `.error`. -/
def mpls_ballot_reader {f : Type} (openResult : Option f)
    (process : f → Election) : Except String Election :=
  match openResult with
  | none => Except.error "Failed to open CSV file"
  | some content => Except.ok (process content)

/-- `btv_ballot_reader` (formats/us_vt_btv/mod.rs lines 79–89): on
`File::open` failure the reader logs a warning and returns
`Election::new(vec![], vec![])`. -/
def btv_ballot_reader {f : Type} (openResult : Option f)
    (process : f → Election) : Election :=
  match openResult with
  | none => Election.new [] []
  | some content => process content

/-- `nyc_ballot_reader` (formats/us_ny_nyc/mod.rs lines 262–278): on
`Workbook::open` failure for the candidates file the reader warns and
returns an empty election. -/
def nyc_ballot_reader {f : Type} (openResult : Option f)
    (process : f → Election) : Election :=
  match openResult with
  | none => Election.new [] []
  | some content => process content

/-! ## Observables of a round, and concrete inputs used by the claims -/

/-- A round with no allocations, used only as a `getD` default. -/
def emptyRound : TabulatorRound :=
  { allocations := [], undervote := 0, overvote := 0, continuing_ballots := 0, transfers := [] }

/-- The votes of a round's `Exhausted` allocation entries. -/
def roundExhausted (r : TabulatorRound) : Nat :=
  ((r.allocations.filter (fun al => al.allocatee = Allocatee.Exhausted)).map
    (fun al => al.votes)).sum

/-- The sum of all of a round's allocation entries (candidates and
`Exhausted`). -/
def roundAllocSum (r : TabulatorRound) : Nat :=
  (r.allocations.map (fun al => al.votes)).sum

/-- The allocatees listed in a round. -/
def roundAllocatees (r : TabulatorRound) : List Allocatee :=
  r.allocations.map (fun al => al.allocatee)

/-- The number of candidate allocation entries of a round holding a positive
number of ballots. -/
def positiveCandidates (r : TabulatorRound) : Nat :=
  (r.allocations.filter (fun al => al.allocatee ≠ Allocatee.Exhausted ∧ 0 < al.votes)).length

/-- A ballot with the given choices and an empty provenance id. -/
def ballotOf (choices : List Choice) : NormalizedBallot :=
  { id := "", choices := choices }

/-- Default tabulation options: `nyc_style` unset. -/
def defaultOptions : TabulationOptions := { nyc_style := none }

/-- NYC-style tabulation options. -/
def nycOptions : TabulationOptions := { nyc_style := some true }

/-- The elimination rule in the cumulative-prefix form that claim C1 states:
find the smallest prefix `1..=k` of the descending-sorted allocations whose
cumulative votes strictly exceed the combined votes of all candidates after
the prefix, and eliminate everyone outside that prefix. Written from the
claim sentence, for comparison against `candidates_to_eliminate`. -/
def spec_cumulative_elimination (votes : List (CandidateId × Nat)) :
    Option (List CandidateId) :=
  match (List.range votes.length).find? (fun j =>
      ((votes.drop (j + 1)).map Prod.snd).sum < ((votes.take (j + 1)).map Prod.snd).sum) with
  | some j => some ((votes.drop (j + 1)).map Prod.fst)
  | none => none

/-- Collect a list of candidate ids into a `BTreeSet`, as
`do_elimination` does (tabulator/mod.rs line 175). -/
def csetOf (l : List CandidateId) : List CandidateId :=
  l.foldl (fun s c => csetInsert c s) []

/-- Ballots giving first-round allocations `4, 3, 3, 2` (candidates
`0, 1, 2, 3`), the input separating the code's elimination rule from the
cumulative-prefix rule of claim C1. -/
def prefixGapBallots : List NormalizedBallot :=
  List.replicate 4 (ballotOf [Choice.Vote 0]) ++
  List.replicate 3 (ballotOf [Choice.Vote 1]) ++
  List.replicate 3 (ballotOf [Choice.Vote 2]) ++
  List.replicate 2 (ballotOf [Choice.Vote 3])

/-- The spec's IRV-flip scenario: ballots `[A]*4, [B,C]*3, [C,B]*4`. -/
def irvFlipBallots : List NormalizedBallot :=
  List.replicate 4 (ballotOf [Choice.Vote 0]) ++
  List.replicate 3 (ballotOf [Choice.Vote 1, Choice.Vote 2]) ++
  List.replicate 4 (ballotOf [Choice.Vote 2, Choice.Vote 1])

/-- A contest with 100 undervote ballots and 400 marked ballots over three
candidates, the NYC round-0 scenario of claim C5. -/
def nycContestBallots : List NormalizedBallot :=
  List.replicate 100 (ballotOf []) ++
  List.replicate 200 (ballotOf [Choice.Vote 0]) ++
  List.replicate 150 (ballotOf [Choice.Vote 1]) ++
  List.replicate 50 (ballotOf [Choice.Vote 2])

/-- The combined size of the `Undervote` and `Overvote` buckets of a
candidate-ballots map. -/
def uvovTotal (cb : List (Choice × List NormalizedBallot)) : Nat :=
  ((cb.filter (fun e => e.1 = Choice.Undervote ∨ e.1 = Choice.Overvote)).map
    (fun e => e.2.length)).sum

/-- The total number of ballots held in the buckets of a candidate-ballots
map. -/
def cbTotal (cb : List (Choice × List NormalizedBallot)) : Nat :=
  (cb.map (fun e => e.2.length)).sum

/-- Strict sortedness of a candidate-ballots map by bucket key: the
well-formedness `BTreeMap` iteration guarantees. -/
def cbSorted (cb : List (Choice × List NormalizedBallot)) : Prop :=
  cb.Pairwise (fun e1 e2 => Choice.ltb e1.1 e2.1 = true)

/-- The reachable-state invariant of the tabulator: buckets are key-sorted
(hence unique), no bucket is empty, and no eliminated candidate holds a
bucket. -/
def StateWF (s : TabulatorState) : Prop :=
  cbSorted s.candidate_ballots ∧
  (∀ e ∈ s.candidate_ballots, e.2 ≠ ([] : List NormalizedBallot)) ∧
  (∀ c ∈ s.eliminated, sortedLookup (Choice.Vote c) s.candidate_ballots = none)

/-- Two tabulator states that agree except possibly on the order of the
`eliminated` hash set elements; the source type is a `HashSet`, whose
iteration order is the one nondeterministic container order in the
tabulator. -/
def stateEquiv (s1 s2 : TabulatorState) : Prop :=
  s1.candidate_ballots = s2.candidate_ballots ∧
  s1.transfers = s2.transfers ∧
  s1.eliminated.Perm s2.eliminated

/-! ## The all-tied family behind the 1,001-round run (claim C3) -/

/-- One single-choice ballot for candidate `i`. -/
def tieBallot (i : CandidateId) : NormalizedBallot :=
  { id := "", choices := [Choice.Vote i] }

/-- `n` ballots, each voting for its own candidate: a perfect `n`-way tie. -/
def tieBallots (n : Nat) : List NormalizedBallot :=
  (List.range n).map tieBallot

/-- A fully popped ballot, as it sits in the `Undervote` bucket. -/
def deadBallot : NormalizedBallot := { id := "", choices := [] }

/-- The candidate-ballots map of the tie family after `m` eliminations:
candidates `0 .. n-m-1` still hold their own ballot, and `m` popped ballots
sit in the `Undervote` bucket. -/
def tieCB (n m : Nat) : List (Choice × List NormalizedBallot) :=
  (List.range (n - m)).map (fun i => (Choice.Vote i, [tieBallot i])) ++
  (if m = 0 then [] else [(Choice.Undervote, List.replicate m deadBallot)])

/-- The tabulator state of the tie family after `m` eliminations: each round
eliminates the last (highest-id) remaining candidate and exhausts its single
ballot. -/
def tieState (n m : Nat) : TabulatorState :=
  { candidate_ballots := tieCB n m
    transfers :=
      if m = 0 then [] else [{ from_ := n - m, to_ := Allocatee.Exhausted, count := 1 }]
    eliminated := (List.range m).map (fun j => n - 1 - j) }

/-- Position `j` votes in an allocation list. -/
def sndAt (l : List (CandidateId × Nat)) (j : Nat) : Nat := (l.getD j (0, 0)).2

/-- Combined votes of the candidates from position `j` on. -/
def suffixVotes (l : List (CandidateId × Nat)) (j : Nat) : Nat :=
  ((l.drop j).map Prod.snd).sum

/-- The candidate vote counts read off a candidate-ballots map in entry
order: one `(candidate, bucket size)` pair per `Vote` bucket. -/
def votesOf (cb : List (Choice × List NormalizedBallot)) : List (CandidateId × Nat) :=
  cb.filterMap (fun e =>
    match e.1 with
    | Choice.Vote c => some (c, e.2.length)
    | _ => none)

/-- Default `(state, round_number)` pair for `getD` indexing. -/
def defaultPair : TabulatorState × Nat := (TabulatorState.new [], 0)

/-! ## Theorems -/

theorem sortedLookup_hmInsert_self {k : Type} [DecidableEq k] (x : k) (v : CandidateId) :
    ∀ l : List (k × CandidateId), sortedLookup x (hmInsert x v l) = some v := by
  intro l
  induction l with
  | nil => simp [hmInsert, sortedLookup]
  | cons e rest ih =>
    obtain ⟨x', v'⟩ := e
    by_cases h : x = x'
    · simp [hmInsert, h, sortedLookup]
    · simp [hmInsert, h, sortedLookup, ih]

theorem add_id_to_choice_fst_lookup {k : Type} [DecidableEq k]
    (m : CandidateMap k) (x : k) (c : Candidate) :
    (sortedLookup x (m.add_id_to_choice x c).1.id_to_index).isSome := by
  unfold CandidateMap.add_id_to_choice
  by_cases h : (sortedLookup x m.id_to_index).isSome
  · simp [h]
  · simp only [h]
    cases hf : m.candidates.findIdx? (fun c' => c'.name == c.name) with
    | some i => simp [sortedLookup_hmInsert_self]
    | none => simp [CandidateMap.add, sortedLookup_hmInsert_self]

theorem add_id_to_choice_snd {k : Type} [DecidableEq k]
    (m : CandidateMap k) (x : k) (c : Candidate) :
    (m.add_id_to_choice x c).2 = (m.add_id_to_choice x c).1.id_to_choice x := rfl

theorem add_id_to_choice_of_isSome {k : Type} [DecidableEq k]
    (m : CandidateMap k) (x : k) (c : Candidate)
    (h : (sortedLookup x m.id_to_index).isSome) :
    m.add_id_to_choice x c = (m, m.id_to_choice x) := by
  unfold CandidateMap.add_id_to_choice
  simp [h]

/-- C9: `add_id_to_choice(x, C)` twice returns the same `Choice` both times
(and an actual `Choice`, not the lookup panic), and the second call leaves
the whole map — candidate vector and external-id index alike — unchanged. -/
theorem claim_C9 {k : Type} [DecidableEq k] (m : CandidateMap k) (x : k) (c : Candidate) :
    ((m.add_id_to_choice x c).1.add_id_to_choice x c).2 = (m.add_id_to_choice x c).2 ∧
    ((m.add_id_to_choice x c).1.add_id_to_choice x c).1 = (m.add_id_to_choice x c).1 ∧
    ((m.add_id_to_choice x c).2).isSome := by
  have h1 := add_id_to_choice_fst_lookup m x c
  have hsecond : (m.add_id_to_choice x c).1.add_id_to_choice x c =
      ((m.add_id_to_choice x c).1, (m.add_id_to_choice x c).1.id_to_choice x) :=
    add_id_to_choice_of_isSome (m.add_id_to_choice x c).1 x c h1
  refine ⟨?_, ?_, ?_⟩
  · rw [hsecond, add_id_to_choice_snd]
  · rw [hsecond]
  · rw [add_id_to_choice_snd]
    unfold CandidateMap.id_to_choice
    simpa using h1

/-- C10: on the empty ballot list `tabulate` does not panic and returns
exactly one round, holding only the zero-vote `Exhausted` entry, zero
undervotes, overvotes and continuing ballots, and no transfers. -/
theorem claim_C10 : ∀ opts : TabulationOptions,
    tabulate [] opts =
      some [(⟨[⟨Allocatee.Exhausted, 0⟩], 0, 0, 0, []⟩ : TabulatorRound)] :=
  fun _ => rfl

/-- C8 counterexample: on an absent input file the Minneapolis flat-CSV
reader does not return an empty `Election` — it panics (`.expect`), modelled
by `Except.error`; so "every format reader degrades to an empty Election" is
false. -/
theorem claim_C8_counterexample :
    @mpls_ballot_reader Unit none (fun _ => Election.new [] [])
        = Except.error "Failed to open CSV file" ∧
    ∀ e : Election, @mpls_ballot_reader Unit none (fun _ => Election.new [] []) ≠ Except.ok e := by
  exact ⟨rfl, fun _ h => Except.noConfusion h⟩

/-- C8 (amended): on an absent input file the BTV and NYC readers degrade to
an empty `Election` (no candidates, no ballots), while the Minneapolis
flat-CSV reader aborts with a panic instead of returning an `Election`. -/
theorem claim_C8 : ∀ (f : Type) (process : f → Election),
    btv_ballot_reader (none : Option f) process = Election.new [] [] ∧
    nyc_ballot_reader (none : Option f) process = Election.new [] [] ∧
    ∀ e : Election, mpls_ballot_reader (none : Option f) process ≠ Except.ok e :=
  fun _ _ => ⟨rfl, rfl, fun _ h => Except.noConfusion h⟩

/-- C4: whenever the batch rule would eliminate nobody and the allocations
are non-empty, the elimination step eliminates exactly the last candidate in
the descending-sorted order; and with non-empty allocations the elimination
set is never empty. -/
theorem claim_C4 (a : Allocations) (h : a.votes ≠ []) :
    candidates_to_eliminate a ≠ [] ∧
    (batch_to_eliminate a = [] →
      candidates_to_eliminate a = [(a.votes.getLast h).1]) := by
  constructor
  · unfold candidates_to_eliminate
    by_cases hb : batch_to_eliminate a = []
    · simp only [hb, h, ne_eq, not_false_eq_true, and_self, if_true]
      rw [List.getLast?_eq_getLast a.votes h]
      simp
    · simp [hb]
  · intro hb
    unfold candidates_to_eliminate
    simp only [hb, h, ne_eq, not_false_eq_true, and_self, if_true]
    rw [List.getLast?_eq_getLast a.votes h]

/-- C4 witness: a three-way tie at 5 votes; the batch rule eliminates
nobody, and the elimination set is exactly the last sorted candidate. -/
theorem claim_C4_witness :
    batch_to_eliminate ⟨0, [(0, 5), (1, 5), (2, 5)]⟩ = [] ∧
    candidates_to_eliminate ⟨0, [(0, 5), (1, 5), (2, 5)]⟩ ≠ [] ∧
    candidates_to_eliminate ⟨0, [(0, 5), (1, 5), (2, 5)]⟩ = [2] :=
  ⟨by decide,
   (claim_C4 ⟨0, [(0, 5), (1, 5), (2, 5)]⟩ (by decide)).1,
   ((claim_C4 ⟨0, [(0, 5), (1, 5), (2, 5)]⟩ (by decide)).2 (by decide)).trans (by decide)⟩

set_option maxRecDepth 400000

/-- C1 counterexample: on first-round allocations `4, 3, 3, 2` the claim's
cumulative-prefix rule eliminates candidates `2` and `3` (prefix `4+3 = 7`
strictly exceeds `3+2 = 5`), but the tabulator's elimination step eliminates
only candidate `3` — its loop compares a single candidate's own votes, not
the cumulative prefix, against the trailing total — and candidate `2` is
still allocated in the next round. -/
theorem claim_C1_counterexample :
    spec_cumulative_elimination
        ((TabulatorState.new prefixGapBallots).allocations defaultOptions 0).votes
      = some [2, 3] ∧
    candidates_to_eliminate
        ((TabulatorState.new prefixGapBallots).allocations defaultOptions 0)
      = [3] ∧
    Allocatee.Candidate 2 ∈
      roundAllocatees (((tabulate prefixGapBallots defaultOptions).getD []).getD 1 emptyRound) :=
  ⟨by decide, by decide, by decide⟩

theorem elimScan_char (l : List (CandidateId × Nat)) : ∀ i0 : Nat,
    (elimScan l ((l.map Prod.snd).sum) i0 = [] ∧
      ∀ j, 0 < i0 + j → j < l.length → sndAt l j ≤ suffixVotes l (j + 1)) ∨
    (∃ j, 0 < i0 + j ∧ j < l.length ∧ suffixVotes l (j + 1) < sndAt l j ∧
      (∀ i, 0 < i0 + i → i < j → sndAt l i ≤ suffixVotes l (i + 1)) ∧
      elimScan l ((l.map Prod.snd).sum) i0 = l.drop (j + 1)) := by
  induction l with
  | nil =>
    intro i0
    left
    exact ⟨rfl, fun j _ hj => absurd hj (by simp)⟩
  | cons e rest ih =>
    intro i0
    obtain ⟨c, v⟩ := e
    have hsum : (((c, v) :: rest).map Prod.snd).sum = v + (rest.map Prod.snd).sum := by simp
    have hsub : v + (rest.map Prod.snd).sum - v = (rest.map Prod.snd).sum := by omega
    have hstep : elimScan ((c, v) :: rest) ((((c, v) :: rest).map Prod.snd).sum) i0 =
        if v > (rest.map Prod.snd).sum ∧ i0 > 0 then rest
        else elimScan rest ((rest.map Prod.snd).sum) (i0 + 1) := by
      rw [hsum]
      simp only [elimScan, hsub]
    by_cases hbr : v > (rest.map Prod.snd).sum ∧ i0 > 0
    · right
      refine ⟨0, by omega, by simp, ?_, fun i hi hij => absurd hij (by omega), ?_⟩
      · simpa [sndAt, suffixVotes] using hbr.1
      · rw [hstep, if_pos hbr]
        simp
    · have hrec : elimScan ((c, v) :: rest) ((((c, v) :: rest).map Prod.snd).sum) i0 =
          elimScan rest ((rest.map Prod.snd).sum) (i0 + 1) := by
        rw [hstep, if_neg hbr]
      have hzero : 0 < i0 → sndAt ((c, v) :: rest) 0 ≤ suffixVotes ((c, v) :: rest) 1 := by
        intro h0
        have : ¬ v > (rest.map Prod.snd).sum := fun hv => hbr ⟨hv, h0⟩
        simpa [sndAt, suffixVotes] using this
      rcases ih (i0 + 1) with ⟨he, hall⟩ | ⟨j, hj0, hjlen, hjgt, hjmin, hjeq⟩
      · left
        refine ⟨by rw [hrec]; exact he, ?_⟩
        intro j hj hjl
        cases j with
        | zero => exact hzero (by omega)
        | succ j' =>
          have := hall j' (by omega) (by simpa using hjl)
          simpa [sndAt, suffixVotes, List.getD_cons_succ, List.drop_succ_cons] using this
      · right
        refine ⟨j + 1, by omega, by simpa using hjlen, ?_, ?_, ?_⟩
        · simpa [sndAt, suffixVotes, List.getD_cons_succ, List.drop_succ_cons] using hjgt
        · intro i hi hij
          cases i with
          | zero => exact hzero (by omega)
          | succ i' =>
            have := hjmin i' (by omega) (by omega)
            simpa [sndAt, suffixVotes, List.getD_cons_succ, List.drop_succ_cons] using this
        · rw [hrec, hjeq]
          simp [List.drop_succ_cons]

/-- C1 (amended): in an elimination step, the batch rule eliminates exactly
the candidates strictly after the first position `j ≥ 1` (0-based) of the
descending-sorted allocations at which that single candidate's own votes
strictly exceed the combined votes of all candidates after it (not the
cumulative prefix votes, as originally claimed); if no such position exists
the batch rule eliminates nobody and the tie-break fallback of C4 applies. -/
theorem claim_C1_amended (a : Allocations) :
    (batch_to_eliminate a = [] ∧
      ∀ j, 0 < j → j < a.votes.length → sndAt a.votes j ≤ suffixVotes a.votes (j + 1)) ∨
    (∃ j, 0 < j ∧ j < a.votes.length ∧ suffixVotes a.votes (j + 1) < sndAt a.votes j ∧
      (∀ i, 0 < i → i < j → sndAt a.votes i ≤ suffixVotes a.votes (i + 1)) ∧
      batch_to_eliminate a = csetOf ((a.votes.drop (j + 1)).map Prod.fst)) := by
  have hc : a.continuing = (a.votes.map Prod.snd).sum := rfl
  rcases elimScan_char a.votes 0 with ⟨he, hall⟩ | ⟨j, hj0, hjlen, hjgt, hjmin, hjeq⟩
  · left
    constructor
    · unfold batch_to_eliminate
      rw [hc, he]
      rfl
    · intro j hj hjl
      exact hall j (by omega) hjl
  · right
    refine ⟨j, by omega, hjlen, hjgt, fun i hi hij => hjmin i (by omega) hij, ?_⟩
    unfold batch_to_eliminate csetOf
    rw [hc, hjeq]

theorem allocFold_snd (opts : TabulationOptions) (r : Nat) :
    ∀ (cb : List (Choice × List NormalizedBallot)) (acc : List (CandidateId × Nat) × Nat),
    (cb.foldl (allocStep opts r) acc).2 =
      acc.2 + (if opts.nyc_style.getD false = true ∧ r = 0 then 0 else uvovTotal cb) := by
  intro cb
  induction cb with
  | nil => intro acc; simp [uvovTotal]
  | cons e rest ih =>
    intro acc
    obtain ⟨ch, l⟩ := e
    rw [List.foldl_cons]
    cases ch with
    | Vote c =>
      have hstep : allocStep opts r acc (Choice.Vote c, l) = (amInsert c l.length acc.1, acc.2) :=
        rfl
      have huv : uvovTotal ((Choice.Vote c, l) :: rest) = uvovTotal rest := by
        simp [uvovTotal, List.filter_cons]
      rw [hstep, ih, huv]
    | Undervote =>
      have huv : uvovTotal ((Choice.Undervote, l) :: rest) = l.length + uvovTotal rest := by
        simp [uvovTotal, List.filter_cons]
      by_cases hr : opts.nyc_style.getD false = true ∧ r = 0
      · have hstep : allocStep opts r acc (Choice.Undervote, l) = acc := by
          simp [allocStep, hr]
        rw [hstep, ih]
        simp [hr]
      · have hstep : allocStep opts r acc (Choice.Undervote, l) = (acc.1, acc.2 + l.length) := by
          simp [allocStep, hr]
        rw [hstep, ih, huv, if_neg hr, if_neg hr]
        omega
    | Overvote =>
      have huv : uvovTotal ((Choice.Overvote, l) :: rest) = l.length + uvovTotal rest := by
        simp [uvovTotal, List.filter_cons]
      by_cases hr : opts.nyc_style.getD false = true ∧ r = 0
      · have hstep : allocStep opts r acc (Choice.Overvote, l) = acc := by
          simp [allocStep, hr]
        rw [hstep, ih]
        simp [hr]
      · have hstep : allocStep opts r acc (Choice.Overvote, l) = (acc.1, acc.2 + l.length) := by
          simp [allocStep, hr]
        rw [hstep, ih, huv, if_neg hr, if_neg hr]
        omega

theorem allocations_exhausted (s : TabulatorState) (opts : TabulationOptions) (r : Nat) :
    (s.allocations opts r).exhausted =
      if opts.nyc_style.getD false = true ∧ r = 0 then 0
      else uvovTotal s.candidate_ballots := by
  unfold TabulatorState.allocations
  simp only [Allocations.new]
  rw [allocFold_snd opts r s.candidate_ballots ([], 0)]
  simp

/-- C5: with `nyc_style = true` the `Undervote` and `Overvote` buckets
contribute nothing to the exhausted count in round 0 and their full ballot
counts in every later round; with `nyc_style` false or unset they contribute
in every round. In particular, in a contest with 100 undervote ballots and
400 marked ballots, round 0's exhausted is 0 and round 1's exhausted is at
least 100. -/
theorem claim_C5 :
    (∀ (s : TabulatorState) (opts : TabulationOptions) (r : Nat),
      (opts.nyc_style = some true →
        (s.allocations opts 0).exhausted = 0 ∧
        (r ≠ 0 → (s.allocations opts r).exhausted = uvovTotal s.candidate_ballots)) ∧
      (opts.nyc_style.getD false = false →
        (s.allocations opts r).exhausted = uvovTotal s.candidate_ballots)) ∧
    roundExhausted (((tabulate nycContestBallots nycOptions).getD []).getD 0 emptyRound) = 0 ∧
    100 ≤ roundExhausted (((tabulate nycContestBallots nycOptions).getD []).getD 1 emptyRound) := by
  refine ⟨?_, by decide, by decide⟩
  intro s opts r
  constructor
  · intro hnyc
    constructor
    · rw [allocations_exhausted]
      simp [hnyc]
    · intro hr
      rw [allocations_exhausted]
      simp [hnyc, hr]
  · intro hfalse
    rw [allocations_exhausted]
    simp [hfalse]

/-- C5 witness: the general part of C5 applied at the concrete NYC contest
(100 undervote + 400 marked ballots): the initial state's round-0 exhausted
count is 0, its round-1 exhausted count is the full undervote-bucket size,
and the unset-flag variant counts the buckets in round 0. -/
theorem claim_C5_witness :
    ((TabulatorState.new nycContestBallots).allocations nycOptions 0).exhausted = 0 ∧
    ((TabulatorState.new nycContestBallots).allocations nycOptions 1).exhausted =
      uvovTotal (TabulatorState.new nycContestBallots).candidate_ballots ∧
    ((TabulatorState.new nycContestBallots).allocations defaultOptions 0).exhausted =
      uvovTotal (TabulatorState.new nycContestBallots).candidate_ballots :=
  ⟨((claim_C5.1 (TabulatorState.new nycContestBallots) nycOptions 0).1 rfl).1,
   ((claim_C5.1 (TabulatorState.new nycContestBallots) nycOptions 1).1 rfl).2 (by decide),
   (claim_C5.1 (TabulatorState.new nycContestBallots) defaultOptions 0).2 rfl⟩

theorem Choice.ltb_irrefl (a : Choice) : Choice.ltb a a = false := by
  cases a <;> simp [Choice.ltb, Choice.tag, Choice.cid]

theorem Choice.ltb_asymm {a b : Choice} (h : Choice.ltb a b = true) :
    Choice.ltb b a = false := by
  cases a <;> cases b <;> simp_all [Choice.ltb, Choice.tag, Choice.cid]
  omega

theorem Choice.ltb_trans {a b c : Choice} (h1 : Choice.ltb a b = true)
    (h2 : Choice.ltb b c = true) : Choice.ltb a c = true := by
  cases a <;> cases b <;> cases c <;> simp_all [Choice.ltb, Choice.tag, Choice.cid]
  omega

theorem Choice.eq_of_not_ltb {a b : Choice} (h1 : Choice.ltb a b = false)
    (h2 : Choice.ltb b a = false) : a = b := by
  cases a <;> cases b <;> simp_all [Choice.ltb, Choice.tag, Choice.cid]
  exact le_antisymm h2 h1

theorem Choice.ltb_vote_vote (a b : CandidateId) :
    Choice.ltb (Choice.Vote a) (Choice.Vote b) = decide (a < b) := by
  simp [Choice.ltb, Choice.tag, Choice.cid]

theorem sortedLookup_eq_none_of_forall {α β : Type} [DecidableEq α] (k : α)
    (m : List (α × β)) (h : ∀ e ∈ m, e.1 ≠ k) : sortedLookup k m = none := by
  induction m with
  | nil => rfl
  | cons e rest ih =>
    have hk : k ≠ e.1 := fun hk => h e (List.mem_cons_self e rest) hk.symm
    obtain ⟨k', v'⟩ := e
    simp only [sortedLookup, if_neg hk]
    exact ih fun e' he' => h e' (List.mem_cons_of_mem _ he')

theorem mem_of_sortedLookup_eq_some {α β : Type} [DecidableEq α] {k : α}
    {m : List (α × β)} {v : β} (h : sortedLookup k m = some v) : (k, v) ∈ m := by
  induction m with
  | nil => simp [sortedLookup] at h
  | cons e rest ih =>
    obtain ⟨k', v'⟩ := e
    by_cases hk : k = k'
    · subst hk
      simp [sortedLookup] at h
      simp [h]
    · simp only [sortedLookup, if_neg hk] at h
      exact List.mem_cons_of_mem _ (ih h)

theorem sortedLookup_ne_none_of_mem {α β : Type} [DecidableEq α] {k : α}
    {m : List (α × β)} {v : β} (h : (k, v) ∈ m) : sortedLookup k m ≠ none := by
  induction m with
  | nil => simp at h
  | cons e rest ih =>
    obtain ⟨k', v'⟩ := e
    by_cases hk : k = k'
    · simp [sortedLookup, hk]
    · rcases List.mem_cons.mp h with he | he
      · exact absurd (congrArg Prod.fst he) hk
      · simpa [sortedLookup, hk] using ih he

theorem cbSorted_head_rel {e : Choice × List NormalizedBallot}
    {rest : List (Choice × List NormalizedBallot)} (h : cbSorted (e :: rest)) :
    ∀ e' ∈ rest, Choice.ltb e.1 e'.1 = true :=
  fun e' he' => (List.pairwise_cons.mp h).1 e' he'

theorem cbSorted_tail {e : Choice × List NormalizedBallot}
    {rest : List (Choice × List NormalizedBallot)} (h : cbSorted (e :: rest)) :
    cbSorted rest :=
  (List.pairwise_cons.mp h).2

theorem sortedLookup_eq_some_of_mem {k : Choice} {v : List NormalizedBallot}
    {m : List (Choice × List NormalizedBallot)} (hs : cbSorted m) (h : (k, v) ∈ m) :
    sortedLookup k m = some v := by
  induction m with
  | nil => simp at h
  | cons e rest ih =>
    rcases List.mem_cons.mp h with he | he
    · simp [sortedLookup, ← he]
    · have hne : k ≠ e.1 := by
        intro hk
        have := cbSorted_head_rel hs (k, v) he
        rw [← hk] at this
        simp [Choice.ltb_irrefl] at this
      obtain ⟨k', v'⟩ := e
      simp only [sortedLookup, if_neg hne]
      exact ih (cbSorted_tail hs) he

theorem bmapPush_mem_key {m : List (Choice × List NormalizedBallot)} {k : Choice}
    {b : NormalizedBallot} : ∀ e' ∈ bmapPush k b m, e'.1 = k ∨ ∃ l', (e'.1, l') ∈ m := by
  induction m with
  | nil =>
    intro e' he'
    simp [bmapPush] at he'
    simp [he']
  | cons e2 rest2 ih2 =>
    intro e' he'
    obtain ⟨k2, l2⟩ := e2
    by_cases g1 : Choice.ltb k k2 = true
    · rw [bmapPush, if_pos g1] at he'
      rcases List.mem_cons.mp he' with h' | h'
      · simp [h']
      · right
        exact ⟨e'.2, by simp [h']⟩
    · by_cases g2 : Choice.ltb k2 k = true
      · rw [bmapPush, if_neg (by simp [g1]), if_pos g2] at he'
        rcases List.mem_cons.mp he' with h' | h'
        · right
          exact ⟨l2, by simp [h']⟩
        · rcases ih2 e' h' with h'' | h''
          · exact Or.inl h''
          · obtain ⟨l', hl'⟩ := h''
            exact Or.inr ⟨l', by simp [hl']⟩
      · rw [bmapPush, if_neg (by simp [g1]), if_neg (by simp [g2])] at he'
        rcases List.mem_cons.mp he' with h' | h'
        · left
          rw [h']
          exact (Choice.eq_of_not_ltb (by simpa using g2) (by simpa using g1))
        · right
          exact ⟨e'.2, by simp [h']⟩

theorem bmapPush_sorted {m : List (Choice × List NormalizedBallot)} (k : Choice)
    (b : NormalizedBallot) (hs : cbSorted m) : cbSorted (bmapPush k b m) := by
  induction m with
  | nil => simp [bmapPush, cbSorted]
  | cons e rest ih =>
    obtain ⟨k', l⟩ := e
    by_cases h1 : Choice.ltb k k' = true
    · rw [bmapPush, if_pos h1]
      refine List.pairwise_cons.mpr ⟨?_, hs⟩
      intro e' he'
      rcases List.mem_cons.mp he' with he' | he'
      · rw [he']
        exact h1
      · exact Choice.ltb_trans h1 (cbSorted_head_rel hs e' he')
    · by_cases h2 : Choice.ltb k' k = true
      · rw [bmapPush, if_neg (by simp [h1]), if_pos h2]
        refine List.pairwise_cons.mpr ⟨?_, ih (cbSorted_tail hs)⟩
        intro e' he'
        rcases bmapPush_mem_key e' he' with h' | h'
        · rw [h']
          exact h2
        · obtain ⟨l', hl'⟩ := h'
          exact cbSorted_head_rel hs (e'.1, l') hl'
      · rw [bmapPush, if_neg (by simp [h1]), if_neg (by simp [h2])]
        refine List.pairwise_cons.mpr ⟨?_, cbSorted_tail hs⟩
        intro e' he'
        exact cbSorted_head_rel hs e' he'

theorem sortedLookup_bmapPush_ne {m : List (Choice × List NormalizedBallot)}
    {k k' : Choice} (b : NormalizedBallot) (hne : k' ≠ k) :
    sortedLookup k' (bmapPush k b m) = sortedLookup k' m := by
  induction m with
  | nil => simp [bmapPush, sortedLookup, hne]
  | cons e rest ih =>
    obtain ⟨k2, l2⟩ := e
    by_cases g1 : Choice.ltb k k2 = true
    · rw [bmapPush, if_pos g1]
      simp [sortedLookup, hne]
    · by_cases g2 : Choice.ltb k2 k = true
      · rw [bmapPush, if_neg (by simp [g1]), if_pos g2]
        by_cases hk2 : k' = k2
        · simp [sortedLookup, hk2]
        · simp [sortedLookup, hk2, ih]
      · rw [bmapPush, if_neg (by simp [g1]), if_neg (by simp [g2])]
        have hkk2 : k2 = k := Choice.eq_of_not_ltb (by simpa using g2) (by simpa using g1)
        have : k' ≠ k2 := fun h => hne (h.trans hkk2)
        simp [sortedLookup, this]

theorem sortedLookup_bmapPush_self {m : List (Choice × List NormalizedBallot)}
    {k : Choice} (b : NormalizedBallot) (hs : cbSorted m) :
    sortedLookup k (bmapPush k b m) = some (((sortedLookup k m).getD []) ++ [b]) := by
  induction m with
  | nil => simp [bmapPush, sortedLookup]
  | cons e rest ih =>
    obtain ⟨k2, l2⟩ := e
    by_cases g1 : Choice.ltb k k2 = true
    · rw [bmapPush, if_pos g1]
      have hne : ∀ e' ∈ (k2, l2) :: rest, e'.1 ≠ k := by
        intro e' he' hk
        rcases List.mem_cons.mp he' with h' | h'
        · rw [h'] at hk
          simp only at hk
          rw [hk] at g1
          exact absurd g1 (by simp [Choice.ltb_irrefl])
        · have := cbSorted_head_rel hs e' h'
          rw [hk] at this
          have h2 := Choice.ltb_trans g1 this
          exact absurd h2 (by simp [Choice.ltb_irrefl])
      rw [sortedLookup_eq_none_of_forall k _ hne]
      simp [sortedLookup]
    · by_cases g2 : Choice.ltb k2 k = true
      · have hne : k ≠ k2 := by
          intro h
          rw [h] at g2
          exact absurd g2 (by simp [Choice.ltb_irrefl])
        rw [bmapPush, if_neg (by simp [g1]), if_pos g2]
        simp only [sortedLookup, if_neg hne]
        exact ih (cbSorted_tail hs)
      · have hkk2 : k2 = k := Choice.eq_of_not_ltb (by simpa using g2) (by simpa using g1)
        subst hkk2
        rw [bmapPush, if_neg (by simp [g1]), if_neg (by simp [g2])]
        simp [sortedLookup]

theorem cbTotal_bmapPush (m : List (Choice × List NormalizedBallot)) (k : Choice)
    (b : NormalizedBallot) : cbTotal (bmapPush k b m) = cbTotal m + 1 := by
  induction m with
  | nil => simp [bmapPush, cbTotal]
  | cons e rest ih =>
    obtain ⟨k2, l2⟩ := e
    by_cases g1 : Choice.ltb k k2 = true
    · rw [bmapPush, if_pos g1]
      simp [cbTotal]
      omega
    · by_cases g2 : Choice.ltb k2 k = true
      · rw [bmapPush, if_neg (by simp [g1]), if_pos g2]
        simp only [cbTotal, List.map_cons, List.sum_cons] at ih ⊢
        omega
      · rw [bmapPush, if_neg (by simp [g1]), if_neg (by simp [g2])]
        simp [cbTotal]
        omega

theorem bmapPush_nonempty {m : List (Choice × List NormalizedBallot)} {k : Choice}
    {b : NormalizedBallot} (h : ∀ e ∈ m, e.2 ≠ ([] : List NormalizedBallot)) :
    ∀ e ∈ bmapPush k b m, e.2 ≠ ([] : List NormalizedBallot) := by
  induction m with
  | nil =>
    intro e he
    simp [bmapPush] at he
    simp [he]
  | cons e2 rest ih =>
    intro e he
    obtain ⟨k2, l2⟩ := e2
    by_cases g1 : Choice.ltb k k2 = true
    · rw [bmapPush, if_pos g1] at he
      rcases List.mem_cons.mp he with h' | h'
      · simp [h']
      · exact h e h'
    · by_cases g2 : Choice.ltb k2 k = true
      · rw [bmapPush, if_neg (by simp [g1]), if_pos g2] at he
        rcases List.mem_cons.mp he with h' | h'
        · rw [h']
          exact h (k2, l2) (by simp)
        · exact ih (fun e' he' => h e' (List.mem_cons_of_mem _ he')) e h'
      · rw [bmapPush, if_neg (by simp [g1]), if_neg (by simp [g2])] at he
        rcases List.mem_cons.mp he with h' | h'
        · rw [h']
          simp
        · exact h e (List.mem_cons_of_mem _ h')

theorem sortedRemove_sublist {α β : Type} [DecidableEq α] (k : α)
    (m : List (α × β)) : (sortedRemove k m).Sublist m := by
  induction m with
  | nil => simp [sortedRemove]
  | cons e rest ih =>
    obtain ⟨k2, l2⟩ := e
    by_cases hk : k = k2
    · rw [sortedRemove, if_pos hk]
      exact List.sublist_cons_self _ _
    · rw [sortedRemove, if_neg hk]
      exact List.Sublist.cons₂ _ ih

theorem sortedRemove_sorted {m : List (Choice × List NormalizedBallot)} (k : Choice)
    (hs : cbSorted m) : cbSorted (sortedRemove k m) :=
  List.Pairwise.sublist (sortedRemove_sublist k m) hs

theorem sortedLookup_sortedRemove_self {m : List (Choice × List NormalizedBallot)}
    (k : Choice) (hs : cbSorted m) : sortedLookup k (sortedRemove k m) = none := by
  induction m with
  | nil => rfl
  | cons e rest ih =>
    obtain ⟨k2, l2⟩ := e
    by_cases hk : k = k2
    · rw [sortedRemove, if_pos hk]
      refine sortedLookup_eq_none_of_forall k rest ?_
      intro e' he' hk'
      have := cbSorted_head_rel hs e' he'
      rw [hk', ← hk] at this
      exact absurd this (by simp [Choice.ltb_irrefl])
    · rw [sortedRemove, if_neg hk]
      simp only [sortedLookup, if_neg hk]
      exact ih (cbSorted_tail hs)

theorem sortedLookup_sortedRemove_ne {α β : Type} [DecidableEq α]
    {m : List (α × β)} {k k' : α} (hne : k' ≠ k) :
    sortedLookup k' (sortedRemove k m) = sortedLookup k' m := by
  induction m with
  | nil => rfl
  | cons e rest ih =>
    obtain ⟨k2, l2⟩ := e
    by_cases hk : k = k2
    · rw [sortedRemove, if_pos hk]
      rw [← hk]
      simp [sortedLookup, hne]
    · rw [sortedRemove, if_neg hk]
      by_cases hk2 : k' = k2
      · simp [sortedLookup, hk2]
      · simp [sortedLookup, hk2, ih]

theorem cbTotal_sortedRemove {m : List (Choice × List NormalizedBallot)} {k : Choice}
    {l : List NormalizedBallot} (h : sortedLookup k m = some l) :
    cbTotal m = cbTotal (sortedRemove k m) + l.length := by
  induction m with
  | nil => simp [sortedLookup] at h
  | cons e rest ih =>
    obtain ⟨k2, l2⟩ := e
    by_cases hk : k = k2
    · subst hk
      simp [sortedLookup] at h
      rw [sortedRemove, if_pos rfl]
      simp [cbTotal, h]
      omega
    · simp only [sortedLookup, if_neg hk] at h
      rw [sortedRemove, if_neg hk]
      simp only [cbTotal, List.map_cons, List.sum_cons] at ih ⊢
      rw [ih h]
      omega

theorem sortedRemove_nonempty {m : List (Choice × List NormalizedBallot)} {k : Choice}
    (h : ∀ e ∈ m, e.2 ≠ ([] : List NormalizedBallot)) :
    ∀ e ∈ sortedRemove k m, e.2 ≠ ([] : List NormalizedBallot) :=
  fun e he => h e ((sortedRemove_sublist k m).mem he)

theorem csetInsert_mem {a c : CandidateId} : ∀ {s : List CandidateId},
    a ∈ csetInsert c s ↔ a = c ∨ a ∈ s := by
  intro s
  induction s with
  | nil => simp [csetInsert]
  | cons c' rest ih =>
    by_cases h1 : c < c'
    · rw [csetInsert, if_pos h1]
      simp
    · by_cases h2 : c' < c
      · rw [csetInsert, if_neg h1, if_pos h2]
        simp only [List.mem_cons, ih]
        tauto
      · have heq : c' = c := le_antisymm (Nat.le_of_not_lt h1) (Nat.le_of_not_lt h2)
        rw [csetInsert, if_neg h1, if_neg h2]
        subst heq
        simp only [List.mem_cons]
        tauto

theorem csetInsert_sorted {c : CandidateId} {s : List CandidateId}
    (hs : s.Pairwise (· < ·)) : (csetInsert c s).Pairwise (· < ·) := by
  induction s with
  | nil => simp [csetInsert]
  | cons c' rest ih =>
    obtain ⟨hrel, htail⟩ := List.pairwise_cons.mp hs
    by_cases h1 : c < c'
    · rw [csetInsert, if_pos h1]
      refine List.pairwise_cons.mpr ⟨?_, hs⟩
      intro b hb
      rcases List.mem_cons.mp hb with h | h
      · rw [h]
        exact h1
      · exact Nat.lt_trans h1 (hrel b h)
    · by_cases h2 : c' < c
      · rw [csetInsert, if_neg h1, if_pos h2]
        refine List.pairwise_cons.mpr ⟨?_, ih htail⟩
        intro b hb
        rcases csetInsert_mem.mp hb with h | h
        · rw [h]
          exact h2
        · exact hrel b h
      · have heq : c' = c := le_antisymm (Nat.le_of_not_lt h1) (Nat.le_of_not_lt h2)
        rw [csetInsert, if_neg h1, if_neg h2]
        exact hs

theorem csetOf_mem {a : CandidateId} (l : List CandidateId) :
    a ∈ csetOf l ↔ a ∈ l := by
  have key : ∀ (l : List CandidateId) (acc : List CandidateId),
      a ∈ l.foldl (fun s c => csetInsert c s) acc ↔ a ∈ acc ∨ a ∈ l := by
    intro l
    induction l with
    | nil => simp
    | cons c rest ih =>
      intro acc
      rw [List.foldl_cons, ih]
      simp only [csetInsert_mem, List.mem_cons]
      tauto
  have := key l []
  simpa [csetOf] using this

theorem csetOf_sorted (l : List CandidateId) : (csetOf l).Pairwise (· < ·) := by
  have key : ∀ (l : List CandidateId) (acc : List CandidateId),
      acc.Pairwise (· < ·) → (l.foldl (fun s c => csetInsert c s) acc).Pairwise (· < ·) := by
    intro l
    induction l with
    | nil => intro acc h; simpa using h
    | cons c rest ih =>
      intro acc h
      rw [List.foldl_cons]
      exact ih _ (csetInsert_sorted h)
  exact key l [] (by simp)

theorem csetOf_nodup (l : List CandidateId) : (csetOf l).Nodup :=
  (csetOf_sorted l).imp Nat.ne_of_lt

theorem tsetInsert_mem {t t0 : Transfer} : ∀ {ts : List Transfer},
    t ∈ tsetInsert t0 ts → t = t0 ∨ t ∈ ts := by
  intro ts
  induction ts with
  | nil => simp [tsetInsert]
  | cons t' rest ih =>
    intro h
    by_cases h1 : Transfer.ltb t0 t' = true
    · rw [tsetInsert, if_pos h1] at h
      simpa using List.mem_cons.mp h
    · by_cases h2 : Transfer.ltb t' t0 = true
      · rw [tsetInsert, if_neg (by simp [h1]), if_pos h2] at h
        rcases List.mem_cons.mp h with h' | h'
        · simp [h']
        · rcases ih h' with h'' | h''
          · exact Or.inl h''
          · exact Or.inr (List.mem_cons_of_mem _ h'')
      · rw [tsetInsert, if_neg (by simp [h1]), if_neg (by simp [h2])] at h
        exact Or.inr h

theorem tsetFold_mem {c : CandidateId} {t : Transfer} :
    ∀ (tm : List (Allocatee × Nat)) (ts : List Transfer),
    t ∈ tm.foldl (fun ts' p => tsetInsert { from_ := c, to_ := p.1, count := p.2 } ts') ts →
    t ∈ ts ∨ ∃ p ∈ tm, t = { from_ := c, to_ := p.1, count := p.2 } := by
  intro tm
  induction tm with
  | nil => intro ts h; exact Or.inl h
  | cons p rest ih =>
    intro ts h
    rw [List.foldl_cons] at h
    rcases ih _ h with h' | h'
    · rcases tsetInsert_mem h' with h'' | h''
      · exact Or.inr ⟨p, by simp, h''⟩
      · exact Or.inl h''
    · obtain ⟨p', hp', ht'⟩ := h'
      exact Or.inr ⟨p', List.mem_cons_of_mem _ hp', ht'⟩

theorem tmapIncr_mem {a : Allocatee} {n : Nat} {k : Allocatee} :
    ∀ {tm : List (Allocatee × Nat)}, (a, n) ∈ tmapIncr k tm →
    a = k ∨ ∃ n', (a, n') ∈ tm := by
  intro tm
  induction tm with
  | nil =>
    intro h
    simp [tmapIncr] at h
    simp [h]
  | cons p rest ih =>
    intro h
    obtain ⟨k', n''⟩ := p
    by_cases h1 : Allocatee.ltb k k' = true
    · rw [tmapIncr, if_pos h1] at h
      rcases List.mem_cons.mp h with h' | h'
      · simp at h'
        simp [h']
      · exact Or.inr ⟨n, h'⟩
    · by_cases h2 : Allocatee.ltb k' k = true
      · rw [tmapIncr, if_neg (by simp [h1]), if_pos h2] at h
        rcases List.mem_cons.mp h with h' | h'
        · simp at h'
          exact Or.inr ⟨n'', by simp [h']⟩
        · rcases ih h' with h'' | h''
          · exact Or.inl h''
          · obtain ⟨n', hn'⟩ := h''
            exact Or.inr ⟨n', List.mem_cons_of_mem _ hn'⟩
      · rw [tmapIncr, if_neg (by simp [h1]), if_neg (by simp [h2])] at h
        rcases List.mem_cons.mp h with h' | h'
        · simp at h'
          exact Or.inr ⟨n'', by simp [h']⟩
        · exact Or.inr ⟨n, List.mem_cons_of_mem _ h'⟩

theorem insertDesc_mem {p q : CandidateId × Nat} : ∀ {l : List (CandidateId × Nat)},
    p ∈ insertDesc q l ↔ p = q ∨ p ∈ l := by
  intro l
  induction l with
  | nil => simp [insertDesc]
  | cons y ys ih =>
    by_cases h : q.2 ≥ y.2
    · rw [insertDesc, if_pos h]
      simp
    · rw [insertDesc, if_neg h]
      simp only [List.mem_cons, ih]
      tauto

theorem sortByVotesDesc_mem {p : CandidateId × Nat} :
    ∀ {l : List (CandidateId × Nat)}, p ∈ sortByVotesDesc l ↔ p ∈ l := by
  intro l
  induction l with
  | nil => simp [sortByVotesDesc]
  | cons x xs ih =>
    rw [sortByVotesDesc]
    rw [insertDesc_mem]
    simp [ih]

theorem insertDesc_sum (q : CandidateId × Nat) (l : List (CandidateId × Nat)) :
    ((insertDesc q l).map Prod.snd).sum = q.2 + (l.map Prod.snd).sum := by
  induction l with
  | nil => simp [insertDesc]
  | cons y ys ih =>
    by_cases h : q.2 ≥ y.2
    · rw [insertDesc, if_pos h]
      simp
    · rw [insertDesc, if_neg h]
      simp only [List.map_cons, List.sum_cons, ih]
      omega

theorem sortByVotesDesc_sum (l : List (CandidateId × Nat)) :
    ((sortByVotesDesc l).map Prod.snd).sum = (l.map Prod.snd).sum := by
  induction l with
  | nil => rfl
  | cons x xs ih =>
    rw [sortByVotesDesc, insertDesc_sum, ih]
    simp

theorem insertDesc_length (q : CandidateId × Nat) (l : List (CandidateId × Nat)) :
    (insertDesc q l).length = l.length + 1 := by
  induction l with
  | nil => rfl
  | cons y ys ih =>
    by_cases h : q.2 ≥ y.2
    · rw [insertDesc, if_pos h]
      rfl
    · rw [insertDesc, if_neg h]
      simp [ih]

theorem sortByVotesDesc_length (l : List (CandidateId × Nat)) :
    (sortByVotesDesc l).length = l.length := by
  induction l with
  | nil => rfl
  | cons x xs ih =>
    rw [sortByVotesDesc, insertDesc_length, ih]
    rfl

theorem amInsert_append {c : CandidateId} {v : Nat} :
    ∀ {acc : List (CandidateId × Nat)}, (∀ p ∈ acc, p.1 < c) →
    amInsert c v acc = acc ++ [(c, v)] := by
  intro acc
  induction acc with
  | nil => intro _; rfl
  | cons p rest ih =>
    intro h
    obtain ⟨k', v'⟩ := p
    have hk' : k' < c := h (k', v') (by simp)
    rw [amInsert, if_neg (Nat.lt_asymm hk'), if_pos hk']
    rw [ih fun p hp => h p (List.mem_cons_of_mem _ hp)]
    simp

theorem allocFold_fst (opts : TabulationOptions) (r : Nat) :
    ∀ (cb : List (Choice × List NormalizedBallot)) (acc : List (CandidateId × Nat)) (x : Nat),
    cbSorted cb →
    (∀ p ∈ acc, ∀ e ∈ cb, ∀ c, e.1 = Choice.Vote c → p.1 < c) →
    (cb.foldl (allocStep opts r) (acc, x)).1 = acc ++ votesOf cb := by
  intro cb
  induction cb with
  | nil =>
    intro acc x _ _
    simp [votesOf]
  | cons e rest ih =>
    intro acc x hs hless
    obtain ⟨ch, l⟩ := e
    rw [List.foldl_cons]
    cases ch with
    | Vote c =>
      have hstep : allocStep opts r (acc, x) (Choice.Vote c, l) =
          (amInsert c l.length acc, x) := rfl
      have hacc : ∀ p ∈ acc, p.1 < c :=
        fun p hp => hless p hp (Choice.Vote c, l) (by simp) c rfl
      rw [hstep, amInsert_append hacc]
      rw [ih (acc ++ [(c, l.length)]) x (cbSorted_tail hs) ?_]
      · simp [votesOf]
      · intro p hp e' he' c' he'c
        rcases List.mem_append.mp hp with h' | h'
        · exact hless p h' e' (List.mem_cons_of_mem _ he') c' he'c
        · have hpc : p = (c, l.length) := by simpa using h'
          have hrel := cbSorted_head_rel hs e' he'
          rw [he'c] at hrel
          rw [Choice.ltb_vote_vote] at hrel
          rw [hpc]
          simpa using hrel
    | Undervote =>
      have hfst : ∃ x', allocStep opts r (acc, x) (Choice.Undervote, l) = (acc, x') := by
        unfold allocStep
        by_cases hr : opts.nyc_style.getD false = true ∧ r = 0
        · exact ⟨x, by simp [hr]⟩
        · exact ⟨x + l.length, by simp [hr]⟩
      obtain ⟨x', hx'⟩ := hfst
      rw [hx']
      rw [ih acc x' (cbSorted_tail hs)
        (fun p hp e' he' c' he'c => hless p hp e' (List.mem_cons_of_mem _ he') c' he'c)]
      simp [votesOf]
    | Overvote =>
      have hfst : ∃ x', allocStep opts r (acc, x) (Choice.Overvote, l) = (acc, x') := by
        unfold allocStep
        by_cases hr : opts.nyc_style.getD false = true ∧ r = 0
        · exact ⟨x, by simp [hr]⟩
        · exact ⟨x + l.length, by simp [hr]⟩
      obtain ⟨x', hx'⟩ := hfst
      rw [hx']
      rw [ih acc x' (cbSorted_tail hs)
        (fun p hp e' he' c' he'c => hless p hp e' (List.mem_cons_of_mem _ he') c' he'c)]
      simp [votesOf]

theorem allocations_votes (s : TabulatorState) (opts : TabulationOptions) (r : Nat)
    (hs : cbSorted s.candidate_ballots) :
    (s.allocations opts r).votes = sortByVotesDesc (votesOf s.candidate_ballots) := by
  unfold TabulatorState.allocations
  simp only [Allocations.new]
  rw [allocFold_fst opts r s.candidate_ballots [] 0 hs (by simp)]
  simp

theorem cbTotal_partition (cb : List (Choice × List NormalizedBallot)) :
    cbTotal cb = ((votesOf cb).map Prod.snd).sum + uvovTotal cb := by
  induction cb with
  | nil => simp [cbTotal, votesOf, uvovTotal]
  | cons e rest ih =>
    obtain ⟨ch, l⟩ := e
    cases ch with
    | Vote c =>
      have h1 : cbTotal ((Choice.Vote c, l) :: rest) = l.length + cbTotal rest := by
        simp [cbTotal]
      have h2 : votesOf ((Choice.Vote c, l) :: rest) = (c, l.length) :: votesOf rest := by
        simp [votesOf]
      have h3 : uvovTotal ((Choice.Vote c, l) :: rest) = uvovTotal rest := by
        simp [uvovTotal, List.filter_cons]
      rw [h1, h2, h3, ih]
      simp only [List.map_cons, List.sum_cons]
      omega
    | Undervote =>
      have h1 : cbTotal ((Choice.Undervote, l) :: rest) = l.length + cbTotal rest := by
        simp [cbTotal]
      have h2 : votesOf ((Choice.Undervote, l) :: rest) = votesOf rest := by
        simp [votesOf]
      have h3 : uvovTotal ((Choice.Undervote, l) :: rest) = l.length + uvovTotal rest := by
        simp [uvovTotal, List.filter_cons]
      rw [h1, h2, h3, ih]
      omega
    | Overvote =>
      have h1 : cbTotal ((Choice.Overvote, l) :: rest) = l.length + cbTotal rest := by
        simp [cbTotal]
      have h2 : votesOf ((Choice.Overvote, l) :: rest) = votesOf rest := by
        simp [votesOf]
      have h3 : uvovTotal ((Choice.Overvote, l) :: rest) = l.length + uvovTotal rest := by
        simp [uvovTotal, List.filter_cons]
      rw [h1, h2, h3, ih]
      omega

theorem filter_key_single {cb : List (Choice × List NormalizedBallot)} (k : Choice)
    (hs : cbSorted cb) :
    ((cb.filter (fun e => e.1 = k)).map (fun e => e.2.length)).sum =
      ((sortedLookup k cb).map List.length).getD 0 := by
  induction cb with
  | nil => rfl
  | cons e rest ih =>
    obtain ⟨k', l⟩ := e
    by_cases hk : k' = k
    · subst hk
      have hnone : ∀ e' ∈ rest, e'.1 ≠ k' := by
        intro e' he' h'
        have := cbSorted_head_rel hs e' he'
        rw [h'] at this
        exact absurd this (by simp [Choice.ltb_irrefl])
      have : rest.filter (fun e => e.1 = k') = [] :=
        List.filter_eq_nil_iff.mpr (by
          intro e' he'
          simpa using hnone e' he')
      simp [sortedLookup, List.filter_cons, this]
    · have hk2 : k ≠ k' := fun h => hk h.symm
      simp only [List.filter_cons]
      rw [if_neg (by simpa using hk)]
      simp only [sortedLookup, if_neg hk2]
      exact ih (cbSorted_tail hs)

theorem uvovTotal_split (cb : List (Choice × List NormalizedBallot)) :
    uvovTotal cb =
      ((cb.filter (fun e => e.1 = Choice.Undervote)).map (fun e => e.2.length)).sum +
      ((cb.filter (fun e => e.1 = Choice.Overvote)).map (fun e => e.2.length)).sum := by
  induction cb with
  | nil => simp [uvovTotal]
  | cons e rest ih =>
    obtain ⟨ch, l⟩ := e
    cases ch with
    | Vote c =>
      have h3 : uvovTotal ((Choice.Vote c, l) :: rest) = uvovTotal rest := by
        simp [uvovTotal, List.filter_cons]
      rw [h3, ih]
      simp [List.filter_cons]
    | Undervote =>
      have h3 : uvovTotal ((Choice.Undervote, l) :: rest) = l.length + uvovTotal rest := by
        simp [uvovTotal, List.filter_cons]
      rw [h3, ih]
      simp [List.filter_cons]
      omega
    | Overvote =>
      have h3 : uvovTotal ((Choice.Overvote, l) :: rest) = l.length + uvovTotal rest := by
        simp [uvovTotal, List.filter_cons]
      rw [h3, ih]
      simp [List.filter_cons]
      omega

theorem into_vec_sum (a : Allocations) :
    ((a.into_vec).map (fun al => al.votes)).sum = (a.votes.map Prod.snd).sum + a.exhausted := by
  unfold Allocations.into_vec
  rw [List.map_append, List.sum_append]
  simp only [List.map_map]
  have hc : ((fun al => al.votes) ∘ fun (p : CandidateId × Nat) =>
      ({ allocatee := Allocatee.Candidate p.1, votes := p.2 } : TabulatorAllocation)) =
      Prod.snd := rfl
  rw [hc]
  simp

theorem round_sum (s : TabulatorState) (opts : TabulationOptions) (r : Nat)
    (hs : cbSorted s.candidate_ballots) :
    roundAllocSum (s.as_round opts r) +
      (if opts.nyc_style.getD false = true ∧ r = 0 then
        (s.as_round opts r).undervote + (s.as_round opts r).overvote else 0)
      = cbTotal s.candidate_ballots := by
  have hvotes : ((s.allocations opts r).votes.map Prod.snd).sum =
      ((votesOf s.candidate_ballots).map Prod.snd).sum := by
    rw [allocations_votes s opts r hs, sortByVotesDesc_sum]
  have hsum : roundAllocSum (s.as_round opts r) =
      ((votesOf s.candidate_ballots).map Prod.snd).sum + (s.allocations opts r).exhausted := by
    show ((s.allocations opts r).into_vec.map (fun al => al.votes)).sum = _
    rw [into_vec_sum, hvotes]
  have huv : (s.as_round opts r).undervote =
      ((s.candidate_ballots.filter (fun e => e.1 = Choice.Undervote)).map
        (fun e => e.2.length)).sum := by
    rw [filter_key_single Choice.Undervote hs]
    rfl
  have hov : (s.as_round opts r).overvote =
      ((s.candidate_ballots.filter (fun e => e.1 = Choice.Overvote)).map
        (fun e => e.2.length)).sum := by
    rw [filter_key_single Choice.Overvote hs]
    rfl
  rw [hsum, allocations_exhausted, cbTotal_partition, huv, hov]
  by_cases hr : opts.nyc_style.getD false = true ∧ r = 0
  · rw [if_pos hr, if_pos hr, uvovTotal_split]
    omega
  · rw [if_neg hr, if_neg hr, uvovTotal_split]
    omega

theorem popLoop_allowed (el : List CandidateId) :
    ∀ (l : List Choice) (c : CandidateId),
    (popLoop el l).2 = Choice.Vote c → el.contains c = false := by
  intro l
  induction l with
  | nil =>
    intro c h
    simp [popLoop] at h
  | cons x rest ih =>
    intro c h
    cases hh : rest.headD Choice.Undervote with
    | Vote c' =>
      simp only [popLoop, hh] at h
      by_cases hc : el.contains c' = true
      · rw [if_pos hc] at h
        exact ih c h
      · rw [if_neg hc] at h
        have hcc : c' = c := Choice.Vote.inj h
        rw [← hcc]
        simpa using hc
    | Undervote =>
      simp only [popLoop, hh] at h
      exact absurd h (by simp)
    | Overvote =>
      simp only [popLoop, hh] at h
      exact absurd h (by simp)

theorem contains_true_iff_mem (l : List CandidateId) (a : CandidateId) :
    l.contains a = true ↔ a ∈ l := by
  simp

theorem elimScan_subset : ∀ (l : List (CandidateId × Nat)) (rem i : Nat),
    ∀ p ∈ elimScan l rem i, p ∈ l := by
  intro l
  induction l with
  | nil => intro rem i p hp; simp [elimScan] at hp
  | cons e rest ih =>
    intro rem i p hp
    obtain ⟨c, v⟩ := e
    rw [elimScan] at hp
    by_cases hbr : v > rem - v ∧ i > 0
    · rw [if_pos hbr] at hp
      exact List.mem_cons_of_mem _ hp
    · rw [if_neg hbr] at hp
      exact List.mem_cons_of_mem _ (ih (rem - v) (i + 1) p hp)

theorem votesOf_mem {cb : List (Choice × List NormalizedBallot)} {d : CandidateId} {n : Nat}
    (h : (d, n) ∈ votesOf cb) :
    ∃ l, (Choice.Vote d, l) ∈ cb ∧ n = l.length := by
  unfold votesOf at h
  rw [List.mem_filterMap] at h
  obtain ⟨e, he, heq⟩ := h
  obtain ⟨ch, l⟩ := e
  cases ch with
  | Vote c =>
    simp only [Option.some.injEq, Prod.mk.injEq] at heq
    exact ⟨l, by rw [← heq.1]; exact he, heq.2.symm⟩
  | Undervote => simp at heq
  | Overvote => simp at heq

theorem cte_mem_votes {a : Allocations} {d : CandidateId}
    (h : d ∈ candidates_to_eliminate a) : ∃ n, (d, n) ∈ a.votes := by
  unfold candidates_to_eliminate at h
  by_cases hif : batch_to_eliminate a = [] ∧ a.votes ≠ []
  · rw [if_pos hif] at h
    rw [List.getLast?_eq_getLast a.votes hif.2] at h
    simp only [List.mem_singleton] at h
    refine ⟨(a.votes.getLast hif.2).2, ?_⟩
    rw [h]
    exact List.getLast_mem hif.2
  · rw [if_neg hif] at h
    unfold batch_to_eliminate at h
    rw [show ((elimScan a.votes a.continuing 0).map Prod.fst).foldl
        (fun s c => csetInsert c s) [] =
        csetOf ((elimScan a.votes a.continuing 0).map Prod.fst) from rfl] at h
    rw [csetOf_mem] at h
    rw [List.mem_map] at h
    obtain ⟨p, hp, hpd⟩ := h
    exact ⟨p.2, by rw [← hpd]; exact elimScan_subset _ _ _ p hp⟩

theorem cte_nodup (a : Allocations) : (candidates_to_eliminate a).Nodup := by
  unfold candidates_to_eliminate
  by_cases hif : batch_to_eliminate a = [] ∧ a.votes ≠ []
  · rw [if_pos hif]
    cases a.votes.getLast? <;> simp
  · rw [if_neg hif]
    exact (csetOf_sorted _).imp Nat.ne_of_lt

theorem cte_ne_nil {a : Allocations} (h : a.votes ≠ []) :
    candidates_to_eliminate a ≠ [] := by
  unfold candidates_to_eliminate
  by_cases hb : batch_to_eliminate a = []
  · rw [if_pos ⟨hb, h⟩]
    rw [List.getLast?_eq_getLast a.votes h]
    simp
  · rw [if_neg (by simp [hb])]
    exact hb

theorem popUntil_allowed (el : List CandidateId) (b : NormalizedBallot) (c : CandidateId)
    (h : (popUntil el b).2 = Choice.Vote c) : el.contains c = false := by
  unfold popUntil at h
  exact popLoop_allowed el b.choices c h

theorem reassignFold_spec (el : List CandidateId) :
    ∀ (bl : List NormalizedBallot) (cbm : List (Choice × List NormalizedBallot))
      (tmm : List (Allocatee × Nat)),
    cbSorted cbm →
    (∀ e ∈ cbm, e.2 ≠ ([] : List NormalizedBallot)) →
    (∀ p ∈ tmm, p.1 = Allocatee.Exhausted ∨
      ∃ d, p.1 = Allocatee.Candidate d ∧ el.contains d = false ∧
        sortedLookup (Choice.Vote d) cbm ≠ none) →
    ∃ cbq tmq,
      bl.foldl (reassignStep el) (cbm, tmm) = (cbq, tmq) ∧
      cbSorted cbq ∧ (∀ e ∈ cbq, e.2 ≠ ([] : List NormalizedBallot)) ∧
      cbTotal cbq = cbTotal cbm + bl.length ∧
      (∀ k, sortedLookup k cbq ≠ none → sortedLookup k cbm ≠ none ∨
        k = Choice.Undervote ∨ k = Choice.Overvote ∨
        ∃ d, k = Choice.Vote d ∧ el.contains d = false) ∧
      (∀ k, sortedLookup k cbm ≠ none → sortedLookup k cbq ≠ none) ∧
      (∀ p ∈ tmq, p.1 = Allocatee.Exhausted ∨
        ∃ d, p.1 = Allocatee.Candidate d ∧ el.contains d = false ∧
          sortedLookup (Choice.Vote d) cbq ≠ none) := by
  intro bl
  induction bl with
  | nil =>
    intro cbm tmm hs hne htm
    exact ⟨cbm, tmm, rfl, hs, hne, by simp, fun k hk => Or.inl hk, fun k hk => hk, htm⟩
  | cons b bl ih =>
    intro cbm tmm hs hne htm
    rw [List.foldl_cons]
    rw [show reassignStep el (cbm, tmm) b =
      (bmapPush (popUntil el b).2 (popUntil el b).1 cbm,
        tmapIncr (Allocatee.from_choice (popUntil el b).2) tmm) from rfl]
    set p := popUntil el b with hp
    have hallowed : p.2 = Choice.Undervote ∨ p.2 = Choice.Overvote ∨
        ∃ d, p.2 = Choice.Vote d ∧ el.contains d = false := by
      cases hc : p.2 with
      | Vote d => exact Or.inr (Or.inr ⟨d, rfl, popUntil_allowed el b d (by rw [← hp, hc])⟩)
      | Undervote => exact Or.inl rfl
      | Overvote => exact Or.inr (Or.inl rfl)
    have hs1 : cbSorted (bmapPush p.2 p.1 cbm) := bmapPush_sorted p.2 p.1 hs
    have hne1 : ∀ e ∈ bmapPush p.2 p.1 cbm, e.2 ≠ ([] : List NormalizedBallot) :=
      bmapPush_nonempty hne
    have hinto1 : ∀ k, sortedLookup k cbm ≠ none → sortedLookup k (bmapPush p.2 p.1 cbm) ≠ none := by
      intro k hk
      by_cases hkp : k = p.2
      · rw [hkp, sortedLookup_bmapPush_self p.1 hs]
        simp
      · rw [sortedLookup_bmapPush_ne p.1 hkp]
        exact hk
    have htm1 : ∀ q ∈ tmapIncr (Allocatee.from_choice p.2) tmm,
        q.1 = Allocatee.Exhausted ∨
        ∃ d, q.1 = Allocatee.Candidate d ∧ el.contains d = false ∧
          sortedLookup (Choice.Vote d) (bmapPush p.2 p.1 cbm) ≠ none := by
      intro q hq
      obtain ⟨qa, qn⟩ := q
      rcases tmapIncr_mem hq with h' | h'
      · rcases hallowed with hc | hc | hc
        · left
          rw [h', hc]
          rfl
        · left
          rw [h', hc]
          rfl
        · obtain ⟨d, hd, hdc⟩ := hc
          right
          refine ⟨d, by rw [h', hd]; rfl, hdc, ?_⟩
          rw [← hd, sortedLookup_bmapPush_self p.1 hs]
          simp
      · obtain ⟨n', hn'⟩ := h'
        rcases htm (qa, n') hn' with h'' | h''
        · exact Or.inl h''
        · obtain ⟨d, hd, hdc, hdl⟩ := h''
          exact Or.inr ⟨d, hd, hdc, hinto1 _ hdl⟩
    obtain ⟨cbq, tmq, heq, hsq, hneq, htotq, hfromq, hintoq, htmq⟩ :=
      ih (bmapPush p.2 p.1 cbm) (tmapIncr (Allocatee.from_choice p.2) tmm) hs1 hne1 htm1
    refine ⟨cbq, tmq, heq, hsq, hneq, ?_, ?_, ?_, htmq⟩
    · rw [htotq, cbTotal_bmapPush]
      simp
      omega
    · intro k hk
      rcases hfromq k hk with h' | h'
      · by_cases hkp : k = p.2
        · rcases hallowed with hc | hc | hc
          · right
            left
            rw [hkp, hc]
          · right
            right
            left
            rw [hkp, hc]
          · obtain ⟨d, hd, hdc⟩ := hc
            right
            right
            right
            exact ⟨d, by rw [hkp, hd], hdc⟩
        · rw [sortedLookup_bmapPush_ne p.1 hkp] at h'
          exact Or.inl h'
      · exact Or.inr h'
    · intro k hk
      exact hintoq k (hinto1 k hk)

theorem processOne_spec (el : List CandidateId) (cb : List (Choice × List NormalizedBallot))
    (c : CandidateId) (hs : cbSorted cb)
    (hne : ∀ e ∈ cb, e.2 ≠ ([] : List NormalizedBallot))
    (hlk : sortedLookup (Choice.Vote c) cb ≠ none) :
    ∃ cbq tmq, processOne el cb c = some (cbq, tmq) ∧
      cbSorted cbq ∧ (∀ e ∈ cbq, e.2 ≠ ([] : List NormalizedBallot)) ∧
      cbTotal cbq = cbTotal cb ∧
      (∀ k, sortedLookup k cbq ≠ none →
        (sortedLookup k cb ≠ none ∧ k ≠ Choice.Vote c) ∨
        k = Choice.Undervote ∨ k = Choice.Overvote ∨
        ∃ d, k = Choice.Vote d ∧ el.contains d = false) ∧
      (∀ k, sortedLookup k cb ≠ none → k ≠ Choice.Vote c → sortedLookup k cbq ≠ none) ∧
      (∀ p ∈ tmq, p.1 = Allocatee.Exhausted ∨
        ∃ d, p.1 = Allocatee.Candidate d ∧ el.contains d = false ∧
          sortedLookup (Choice.Vote d) cbq ≠ none) := by
  cases hbal : sortedLookup (Choice.Vote c) cb with
  | none => exact absurd hbal hlk
  | some ballots =>
    have hs0 : cbSorted (sortedRemove (Choice.Vote c) cb) :=
      sortedRemove_sorted (Choice.Vote c) hs
    have hne0 : ∀ e ∈ sortedRemove (Choice.Vote c) cb, e.2 ≠ ([] : List NormalizedBallot) :=
      sortedRemove_nonempty hne
    obtain ⟨cbq, tmq, heq, hsq, hneq, htotq, hfromq, hintoq, htmq⟩ :=
      reassignFold_spec el ballots (sortedRemove (Choice.Vote c) cb) [] hs0 hne0 (by simp)
    refine ⟨cbq, tmq, ?_, hsq, hneq, ?_, ?_, ?_, htmq⟩
    · unfold processOne
      rw [hbal]
      exact congrArg some heq
    · rw [htotq]
      have := cbTotal_sortedRemove (k := Choice.Vote c) (l := ballots) (m := cb) hbal
      omega
    · intro k hk
      rcases hfromq k hk with h' | h'
      · left
        constructor
        · by_cases hkc : k = Choice.Vote c
          · rw [hkc, sortedLookup_sortedRemove_self (Choice.Vote c) hs] at h'
            exact absurd rfl h'
          · rw [sortedLookup_sortedRemove_ne hkc] at h'
            exact h'
        · intro hkc
          rw [hkc, sortedLookup_sortedRemove_self (Choice.Vote c) hs] at h'
          exact absurd rfl h'
      · exact Or.inr h'
    · intro k hk hkc
      refine hintoq k ?_
      rw [sortedLookup_sortedRemove_ne hkc]
      exact hk

theorem elimFold_spec (el : List CandidateId) :
    ∀ (todo : List CandidateId) (cb : List (Choice × List NormalizedBallot))
      (ts : List Transfer),
    cbSorted cb →
    (∀ e ∈ cb, e.2 ≠ ([] : List NormalizedBallot)) →
    (∀ d ∈ todo, el.contains d = true) →
    (∀ d ∈ todo, sortedLookup (Choice.Vote d) cb ≠ none) →
    (∀ d, el.contains d = true → sortedLookup (Choice.Vote d) cb ≠ none → d ∈ todo) →
    todo.Nodup →
    (∀ t ∈ ts, t.to_ = Allocatee.Exhausted ∨
      ∃ d, t.to_ = Allocatee.Candidate d ∧ el.contains d = false ∧
        sortedLookup (Choice.Vote d) cb ≠ none) →
    ∃ cbq tsq,
      todo.foldl (elimAccStep el) (some (cb, ts)) = some (cbq, tsq) ∧
      cbSorted cbq ∧ (∀ e ∈ cbq, e.2 ≠ ([] : List NormalizedBallot)) ∧
      cbTotal cbq = cbTotal cb ∧
      (∀ d, el.contains d = true → sortedLookup (Choice.Vote d) cbq = none) ∧
      (∀ t ∈ tsq, t.to_ = Allocatee.Exhausted ∨
        ∃ d, t.to_ = Allocatee.Candidate d ∧ el.contains d = false ∧
          sortedLookup (Choice.Vote d) cbq ≠ none) := by
  intro todo
  induction todo with
  | nil =>
    intro cb ts hs hne _ _ hout hnodup hts
    refine ⟨cb, ts, rfl, hs, hne, rfl, ?_, hts⟩
    intro d hd
    cases hl : sortedLookup (Choice.Vote d) cb with
    | none => rfl
    | some l => exact absurd (hout d hd (by simp [hl])) (by simp)
  | cons c rest ih =>
    intro cb ts hs hne hin hlk hout hnodup hts
    rw [List.foldl_cons]
    obtain ⟨cb1, tm1, heq1, hs1, hne1, htot1, hfrom1, hinto1, htm1⟩ :=
      processOne_spec el cb c hs hne (hlk c (by simp))
    have hcin : el.contains c = true := hin c (by simp)
    have hcnotin : c ∉ rest := (List.nodup_cons.mp hnodup).1
    set ts1 := tm1.foldl
      (fun ts' p => tsetInsert { from_ := c, to_ := p.1, count := p.2 } ts') ts with hts1
    have hts1ok : ∀ t ∈ ts1, t.to_ = Allocatee.Exhausted ∨
        ∃ d, t.to_ = Allocatee.Candidate d ∧ el.contains d = false ∧
          sortedLookup (Choice.Vote d) cb1 ≠ none := by
      intro t ht
      rcases tsetFold_mem tm1 ts ht with h' | h'
      · rcases hts t h' with h'' | h''
        · exact Or.inl h''
        · obtain ⟨d, hd, hdc, hdl⟩ := h''
          have hdc' : d ≠ c := by
            intro hdd
            rw [hdd, hcin] at hdc
            simp at hdc
          refine Or.inr ⟨d, hd, hdc, ?_⟩
          exact hinto1 (Choice.Vote d) hdl (by simpa using hdc')
      · obtain ⟨p, hp, htp⟩ := h'
        rcases htm1 p hp with h'' | h''
        · left
          rw [htp]
          exact h''
        · obtain ⟨d, hd, hdc, hdl⟩ := h''
          right
          exact ⟨d, by rw [htp]; exact hd, hdc, hdl⟩
    obtain ⟨cbq, tsq, heq, hsq, hneq, htotq, houtq, htsq⟩ :=
      ih cb1 ts1 hs1 hne1
        (fun d hd => hin d (List.mem_cons_of_mem _ hd))
        (fun d hd => by
          have hdc : d ≠ c := fun hdd => hcnotin (hdd ▸ hd)
          exact hinto1 (Choice.Vote d) (hlk d (List.mem_cons_of_mem _ hd))
            (by simpa using hdc))
        (fun d hdc hdl => by
          rcases hfrom1 (Choice.Vote d) hdl with h' | h' | h' | h'
          · have := hout d hdc h'.1
            rcases List.mem_cons.mp this with h'' | h''
            · exact absurd (by rw [h'']) h'.2
            · exact h''
          · exact absurd h' (by simp)
          · exact absurd h' (by simp)
          · obtain ⟨d', hd', hd'c⟩ := h'
            have hdd' : d = d' := Choice.Vote.inj hd'
            rw [← hdd', hdc] at hd'c
            exact absurd hd'c (by simp)
          )
        (List.nodup_cons.mp hnodup).2 hts1ok
    refine ⟨cbq, tsq, ?_, hsq, hneq, by rw [htotq, htot1], houtq, htsq⟩
    have h2 : elimAccStep el (some (cb, ts)) c =
        (some (cb1, ts1) :
          Option ((List (Choice × List NormalizedBallot)) × List Transfer)) := by
      show (match processOne el cb c with
        | none => none
        | some r =>
          some (r.1, r.2.foldl
            (fun ts' p => tsetInsert { from_ := c, to_ := p.1, count := p.2 } ts') ts)) =
        some (cb1, ts1)
      rw [heq1]
    rw [h2]
    exact heq

theorem do_elimination_spec (s : TabulatorState) (opts : TabulationOptions) (r : Nat)
    (hWF : StateWF s) :
    ∃ s', s.do_elimination opts r = some s' ∧ StateWF s' ∧
      cbTotal s'.candidate_ballots = cbTotal s.candidate_ballots ∧
      s'.eliminated = s.eliminated ++ candidates_to_eliminate (s.allocations opts r) := by
  obtain ⟨hs, hne, hclean⟩ := hWF
  set cte := candidates_to_eliminate (s.allocations opts r) with hcte
  set el := s.eliminated ++ cte with hel
  have hvotes_lookup : ∀ d ∈ cte, sortedLookup (Choice.Vote d) s.candidate_ballots ≠ none := by
    intro d hd
    obtain ⟨n, hn⟩ := cte_mem_votes hd
    rw [allocations_votes s opts r hs] at hn
    rw [sortByVotesDesc_mem] at hn
    obtain ⟨l, hl, _⟩ := votesOf_mem hn
    exact sortedLookup_ne_none_of_mem hl
  have hin : ∀ d ∈ cte, el.contains d = true := by
    intro d hd
    rw [contains_true_iff_mem]
    exact List.mem_append_right _ hd
  have hout : ∀ d, el.contains d = true →
      sortedLookup (Choice.Vote d) s.candidate_ballots ≠ none → d ∈ cte := by
    intro d hd hdl
    rw [contains_true_iff_mem] at hd
    rcases List.mem_append.mp hd with h' | h'
    · exact absurd (hclean d h') hdl
    · exact h'
  obtain ⟨cbq, tsq, heqF, hsq, hneq, htotq, houtq, htsq⟩ :=
    elimFold_spec el cte s.candidate_ballots [] hs hne hin hvotes_lookup hout
      (cte_nodup _) (by simp)
  have hguard : transfersGuard cbq tsq = true := by
    unfold transfersGuard
    rw [List.all_eq_true]
    intro t ht
    rcases htsq t ht with h' | h'
    · rw [h']
    · obtain ⟨d, hd, _, hdl⟩ := h'
      rw [hd]
      exact Option.isSome_iff_ne_none.mpr hdl
  refine ⟨{ candidate_ballots := cbq, transfers := sortTransfers cbq tsq, eliminated := el },
    ?_, ⟨hsq, hneq, ?_⟩, htotq, rfl⟩
  · show (match cte.foldl (elimAccStep el)
        (some (s.candidate_ballots, ([] : List Transfer))) with
      | none => none
      | some q =>
        if transfersGuard q.1 q.2 then
          some ({ candidate_ballots := q.1
                  transfers := sortTransfers q.1 q.2
                  eliminated := el } : TabulatorState)
        else none) =
      some ({ candidate_ballots := cbq
              transfers := sortTransfers cbq tsq
              eliminated := el } : TabulatorState)
    rw [heqF]
    simp only [hguard, if_true]
  · intro c hc
    exact houtq c (by rw [contains_true_iff_mem]; exact hc)

theorem newFold_sorted : ∀ (bl : List NormalizedBallot)
    (m : List (Choice × List NormalizedBallot)), cbSorted m →
    cbSorted (bl.foldl (fun m b => bmapPush b.top_vote b m) m) := by
  intro bl
  induction bl with
  | nil => intro m h; exact h
  | cons b rest ih =>
    intro m h
    rw [List.foldl_cons]
    exact ih _ (bmapPush_sorted _ _ h)

theorem newFold_nonempty : ∀ (bl : List NormalizedBallot)
    (m : List (Choice × List NormalizedBallot)),
    (∀ e ∈ m, e.2 ≠ ([] : List NormalizedBallot)) →
    ∀ e ∈ bl.foldl (fun m b => bmapPush b.top_vote b m) m,
      e.2 ≠ ([] : List NormalizedBallot) := by
  intro bl
  induction bl with
  | nil => intro m h; exact h
  | cons b rest ih =>
    intro m h
    rw [List.foldl_cons]
    exact ih _ (bmapPush_nonempty h)

theorem newFold_total : ∀ (bl : List NormalizedBallot)
    (m : List (Choice × List NormalizedBallot)),
    cbTotal (bl.foldl (fun m b => bmapPush b.top_vote b m) m) = cbTotal m + bl.length := by
  intro bl
  induction bl with
  | nil => intro m; simp
  | cons b rest ih =>
    intro m
    rw [List.foldl_cons, ih, cbTotal_bmapPush]
    simp
    omega

theorem new_StateWF (ballots : List NormalizedBallot) :
    StateWF (TabulatorState.new ballots) := by
  refine ⟨?_, ?_, ?_⟩
  · exact newFold_sorted ballots [] (by simp [cbSorted])
  · exact newFold_nonempty ballots [] (by simp)
  · intro c hc
    simp [TabulatorState.new] at hc

theorem new_total (ballots : List NormalizedBallot) :
    cbTotal (TabulatorState.new ballots).candidate_ballots = ballots.length := by
  show cbTotal (ballots.foldl (fun m b => bmapPush b.top_vote b m) []) = ballots.length
  rw [newFold_total]
  simp [cbTotal]

theorem tabAux_spec (opts : TabulationOptions) :
    ∀ (gas : Nat) (s : TabulatorState) (r : Nat),
    StateWF s → max_rounds + 1 ≤ gas + r → r ≤ max_rounds →
    ∃ pairs, tabAux opts gas s r = some pairs ∧
      pairs ≠ [] ∧
      pairs.getD 0 defaultPair = (s, r) ∧
      pairs.length ≤ gas ∧
      (∀ i, i < pairs.length → (pairs.getD i defaultPair).2 = r + i) ∧
      (∀ p ∈ pairs, StateWF p.1 ∧
        cbTotal p.1.candidate_ballots = cbTotal s.candidate_ballots) ∧
      (∀ i j, i ≤ j → j < pairs.length → ∀ c, c ∈ (pairs.getD i defaultPair).1.eliminated →
        c ∈ (pairs.getD j defaultPair).1.eliminated) ∧
      (∀ i, i + 1 < pairs.length →
        2 < ((pairs.getD i defaultPair).1.allocations opts (r + i)).votes.length) := by
  intro gas
  induction gas with
  | zero =>
    intro s r _ hgas hr
    simp only [max_rounds] at hgas hr
    omega
  | succ gas ih =>
    intro s r hWF hgas hr
    have hunfold : tabAux opts (gas + 1) s r =
        (if (s.allocations opts r).votes.length ≤ 2 then some [(s, r)]
         else if r ≥ max_rounds then some [(s, r)]
         else match s.do_elimination opts r with
           | none => none
           | some s' =>
             match tabAux opts gas s' (r + 1) with
             | none => none
             | some rest => some ((s, r) :: rest)) := rfl
    by_cases h1 : (s.allocations opts r).votes.length ≤ 2
    · refine ⟨[(s, r)], by rw [hunfold, if_pos h1], by simp, by simp, by simp, ?_, ?_, ?_, ?_⟩
      · intro i hi
        simp at hi
        simp [hi]
      · intro p hp
        simp at hp
        simp [hp, hWF]
      · intro i j hij hj c hc
        simp at hj
        have hi0 : i = 0 := by omega
        rw [hi0] at hc
        rw [hj]
        exact hc
      · intro i hi
        rw [List.length_singleton] at hi
        omega
    · by_cases h2 : r ≥ max_rounds
      · refine ⟨[(s, r)], by rw [hunfold, if_neg h1, if_pos h2], by simp, by simp, by simp,
          ?_, ?_, ?_, ?_⟩
        · intro i hi
          simp at hi
          simp [hi]
        · intro p hp
          simp at hp
          simp [hp, hWF]
        · intro i j hij hj c hc
          simp at hj
          have hi0 : i = 0 := by omega
          rw [hi0] at hc
          rw [hj]
          exact hc
        · intro i hi
          rw [List.length_singleton] at hi
          omega
      · obtain ⟨s', hde, hWF', htot', helim'⟩ := do_elimination_spec s opts r hWF
        obtain ⟨pairs', heq', hne', hhead', hlen', hidx', hmem', hmono', hbig'⟩ :=
          ih s' (r + 1) hWF' (by simp only [max_rounds] at hgas ⊢; omega)
            (by simp only [max_rounds] at h2 ⊢; omega)
        have hstep : tabAux opts (gas + 1) s r = some ((s, r) :: pairs') := by
          rw [hunfold, if_neg h1, if_neg h2, hde]
          show (match tabAux opts gas s' (r + 1) with
            | none => none
            | some rest => some ((s, r) :: rest)) = some ((s, r) :: pairs')
          rw [heq']
        refine ⟨(s, r) :: pairs', hstep, by simp, by simp, by simpa using hlen', ?_, ?_, ?_, ?_⟩
        · intro i hi
          cases i with
          | zero => simp
          | succ i' =>
            rw [List.getD_cons_succ]
            rw [hidx' i' (by simpa using hi)]
            omega
        · intro p hp
          rcases List.mem_cons.mp hp with h' | h'
          · rw [h']
            exact ⟨hWF, rfl⟩
          · obtain ⟨hw, ht⟩ := hmem' p h'
            exact ⟨hw, by rw [ht, htot']⟩
        · intro i j hij hj c hc
          cases j with
          | zero =>
            have hi0 : i = 0 := by omega
            rw [hi0] at hc
            exact hc
          | succ j' =>
            rw [List.getD_cons_succ]
            cases i with
            | zero =>
              rw [List.getD_cons_zero] at hc
              have hcel : c ∈ s'.eliminated := by
                rw [helim']
                exact List.mem_append_left _ hc
              have hc0 : c ∈ (pairs'.getD 0 defaultPair).1.eliminated := by
                rw [hhead']
                exact hcel
              exact hmono' 0 j' (by omega) (by simpa using hj) c hc0
            | succ i' =>
              rw [List.getD_cons_succ] at hc
              exact hmono' i' j' (by omega) (by simpa using hj) c hc
        · intro i hi
          cases i with
          | zero =>
            simp only [List.getD_cons_zero, Nat.add_zero]
            omega
          | succ i' =>
            rw [List.getD_cons_succ]
            have := hbig' i' (by simpa using hi)
            rw [show r + (i' + 1) = (r + 1) + i' from by omega]
            exact this

theorem tabPairs_spec (ballots : List NormalizedBallot) (opts : TabulationOptions) :
    ∃ pairs, tabPairs ballots opts = some pairs ∧
      pairs ≠ [] ∧
      pairs.getD 0 defaultPair = (TabulatorState.new ballots, 0) ∧
      pairs.length ≤ max_rounds + 1 ∧
      (∀ i, i < pairs.length → (pairs.getD i defaultPair).2 = i) ∧
      (∀ p ∈ pairs, StateWF p.1 ∧ cbTotal p.1.candidate_ballots = ballots.length) ∧
      (∀ i j, i ≤ j → j < pairs.length → ∀ c, c ∈ (pairs.getD i defaultPair).1.eliminated →
        c ∈ (pairs.getD j defaultPair).1.eliminated) ∧
      (∀ i, i + 1 < pairs.length →
        2 < ((pairs.getD i defaultPair).1.allocations opts i).votes.length) := by
  obtain ⟨pairs, heq, hne, hhead, hlen, hidx, hmem, hmono, hbig⟩ :=
    tabAux_spec opts (max_rounds + 1) (TabulatorState.new ballots) 0 (new_StateWF ballots)
      (by omega) (by omega)
  refine ⟨pairs, heq, hne, hhead, hlen, ?_, ?_, hmono, ?_⟩
  · intro i hi
    have := hidx i hi
    simpa using this
  · intro p hp
    obtain ⟨hw, ht⟩ := hmem p hp
    exact ⟨hw, by rw [ht, new_total]⟩
  · intro i hi
    have := hbig i hi
    simpa using this

/-- C2: in every round of `tabulate`, the allocation votes (candidate entries
and the `Exhausted` entry) sum to the total ballot count `N`, once the
undervote and overvote counts excluded from `Exhausted` by the NYC round-0
rule are added back; with the flag unset nothing is added back, because the
buckets are already inside the `Exhausted` entry. -/
theorem claim_C2 : ∀ (ballots : List NormalizedBallot) (opts : TabulationOptions)
    (rounds : List TabulatorRound), tabulate ballots opts = some rounds →
    ∀ i, i < rounds.length →
    roundAllocSum (rounds.getD i emptyRound) +
      (if opts.nyc_style.getD false = true ∧ i = 0 then
        (rounds.getD i emptyRound).undervote + (rounds.getD i emptyRound).overvote else 0) =
    ballots.length := by
  intro ballots opts rounds h i hi
  unfold tabulate at h
  obtain ⟨pairs, hp, hne, hhead, hlen, hidx, hmem, hmono, hbig⟩ := tabPairs_spec ballots opts
  rw [hp] at h
  simp only [Option.map_some'] at h
  have hrounds : rounds = pairs.map (fun p => TabulatorState.as_round p.1 opts p.2) := by
    exact (Option.some.inj h).symm
  have hleni : i < pairs.length := by
    rw [hrounds, List.length_map] at hi
    exact hi
  have hget : rounds.getD i emptyRound =
      TabulatorState.as_round (pairs.getD i defaultPair).1 opts (pairs.getD i defaultPair).2 := by
    rw [hrounds]
    rw [List.getD_eq_getElem _ _ (by simpa using hleni)]
    rw [List.getElem_map]
    rw [List.getD_eq_getElem _ _ hleni]
  have hpmem : pairs.getD i defaultPair ∈ pairs := by
    rw [List.getD_eq_getElem _ _ hleni]
    exact List.getElem_mem hleni
  obtain ⟨hWFi, htoti⟩ := hmem (pairs.getD i defaultPair) hpmem
  rw [hget, hidx i hleni]
  have := round_sum (pairs.getD i defaultPair).1 opts i hWFi.1
  rw [this]
  exact htoti

/-- C2 witness: the conservation identity instantiated on the IRV-flip
contest `[A]*4, [B,C]*3, [C,B]*4` at round 0. -/
theorem claim_C2_witness :
    roundAllocSum (((tabulate irvFlipBallots defaultOptions).getD []).getD 0 emptyRound) +
      (if defaultOptions.nyc_style.getD false = true ∧ 0 = 0 then
        (((tabulate irvFlipBallots defaultOptions).getD []).getD 0 emptyRound).undervote +
        (((tabulate irvFlipBallots defaultOptions).getD []).getD 0 emptyRound).overvote
       else 0) = irvFlipBallots.length :=
  claim_C2 irvFlipBallots defaultOptions ((tabulate irvFlipBallots defaultOptions).getD [])
    (by decide) 0 (by decide)

theorem filter_pos_length : ∀ (vl : List (CandidateId × Nat)) (exh : Nat),
    (∀ p ∈ vl, 0 < p.2) →
    ((vl.map (fun p =>
        ({ allocatee := Allocatee.Candidate p.1, votes := p.2 } : TabulatorAllocation)) ++
      [({ allocatee := Allocatee.Exhausted, votes := exh } : TabulatorAllocation)]).filter
      (fun al => al.allocatee ≠ Allocatee.Exhausted ∧ 0 < al.votes)).length = vl.length := by
  intro vl
  induction vl with
  | nil =>
    intro exh _
    simp
  | cons p rest ih =>
    intro exh hpos
    rw [List.map_cons, List.cons_append, List.filter_cons]
    rw [if_pos (by
      simp only [decide_eq_true_eq]
      exact ⟨by simp, hpos p (by simp)⟩)]
    rw [List.length_cons, ih exh (fun q hq => hpos q (List.mem_cons_of_mem _ hq))]
    simp

theorem allocations_votes_pos (s : TabulatorState) (opts : TabulationOptions) (r : Nat)
    (hWF : StateWF s) : ∀ p ∈ (s.allocations opts r).votes, 0 < p.2 := by
  intro p hp
  obtain ⟨c, n⟩ := p
  rw [allocations_votes s opts r hWF.1, sortByVotesDesc_mem] at hp
  obtain ⟨l, hl, hn⟩ := votesOf_mem hp
  have := hWF.2.1 (Choice.Vote c, l) hl
  simp only at this
  rw [hn]
  exact List.length_pos.mpr this

theorem positiveCandidates_as_round (s : TabulatorState) (opts : TabulationOptions) (r : Nat)
    (hWF : StateWF s) :
    positiveCandidates (s.as_round opts r) = (s.allocations opts r).votes.length := by
  unfold positiveCandidates
  show (((s.allocations opts r).into_vec).filter
    (fun al => al.allocatee ≠ Allocatee.Exhausted ∧ 0 < al.votes)).length = _
  unfold Allocations.into_vec
  rw [filter_pos_length _ _ (allocations_votes_pos s opts r hWF)]

/-- C3 (amended): for every ballot list and options, `tabulate` terminates
without panicking; it only continues a round while more than two candidates
hold positive continuing-ballot counts, and the hard 1,000-round-counter
ceiling bounds the returned list at 1,001 rounds (the round pushed at the
ceiling check included), the rounds produced so far being returned intact. -/
theorem claim_C3 : ∀ (ballots : List NormalizedBallot) (opts : TabulationOptions),
    (tabulate ballots opts).isSome ∧
    ∀ rounds, tabulate ballots opts = some rounds →
      rounds.length ≤ max_rounds + 1 ∧ rounds ≠ [] ∧
      ∀ i, i + 1 < rounds.length → 2 < positiveCandidates (rounds.getD i emptyRound) := by
  intro ballots opts
  obtain ⟨pairs, hp, hne, hhead, hlen, hidx, hmem, hmono, hbig⟩ := tabPairs_spec ballots opts
  have ht : tabulate ballots opts =
      some (pairs.map (fun p => TabulatorState.as_round p.1 opts p.2)) := by
    unfold tabulate
    rw [hp]
    rfl
  constructor
  · rw [ht]
    rfl
  · intro rounds hr
    rw [ht] at hr
    have hrounds : rounds = pairs.map (fun p => TabulatorState.as_round p.1 opts p.2) :=
      (Option.some.inj hr).symm
    refine ⟨by rw [hrounds, List.length_map]; exact hlen, ?_, ?_⟩
    · rw [hrounds]
      simpa using hne
    · intro i hi
      have hleni : i + 1 < pairs.length := by
        rw [hrounds, List.length_map] at hi
        exact hi
      have hleni' : i < pairs.length := by omega
      have hget : rounds.getD i emptyRound =
          TabulatorState.as_round (pairs.getD i defaultPair).1 opts
            (pairs.getD i defaultPair).2 := by
        rw [hrounds, List.getD_eq_getElem _ _ (by simpa using hleni'), List.getElem_map,
          List.getD_eq_getElem _ _ hleni']
      have hpmem : pairs.getD i defaultPair ∈ pairs := by
        rw [List.getD_eq_getElem _ _ hleni']
        exact List.getElem_mem hleni'
      rw [hget, hidx i hleni']
      rw [positiveCandidates_as_round _ _ _ (hmem _ hpmem).1]
      exact hbig i hleni

/-- C3 witness: the amended bound instantiated on the IRV-flip contest. -/
theorem claim_C3_witness :
    ((tabulate irvFlipBallots defaultOptions).isSome = true) ∧
    ((tabulate irvFlipBallots defaultOptions).getD []).length ≤ max_rounds + 1 ∧
    2 < positiveCandidates (((tabulate irvFlipBallots defaultOptions).getD []).getD 0 emptyRound) :=
  ⟨(claim_C3 irvFlipBallots defaultOptions).1,
   ((claim_C3 irvFlipBallots defaultOptions).2
     ((tabulate irvFlipBallots defaultOptions).getD []) (by decide)).1,
   (((claim_C3 irvFlipBallots defaultOptions).2
     ((tabulate irvFlipBallots defaultOptions).getD []) (by decide)).2.2 0 (by decide))⟩

theorem roundAllocatees_as_round (s : TabulatorState) (opts : TabulationOptions) (r : Nat) :
    roundAllocatees (s.as_round opts r) =
      (s.allocations opts r).votes.map (fun p => Allocatee.Candidate p.1) ++
        [Allocatee.Exhausted] := by
  unfold roundAllocatees TabulatorState.as_round Allocations.into_vec
  simp [List.map_map, Function.comp]

/-- C6: a candidate eliminated going into round `r` (a member of the round-`r`
state's eliminated set) is absent from the allocations of round `r` and every
later round; and the reassignment loop only ever stops on `Undervote`,
`Overvote`, or a vote for a non-eliminated candidate, so no ballot is
bucketed under an eliminated candidate. -/
theorem claim_C6 :
    (∀ (ballots : List NormalizedBallot) (opts : TabulationOptions)
      (pairs : List (TabulatorState × Nat)), tabPairs ballots opts = some pairs →
      ∀ i j, i ≤ j → j < pairs.length →
      ∀ c, c ∈ (pairs.getD i defaultPair).1.eliminated →
      Allocatee.Candidate c ∉ roundAllocatees
        (TabulatorState.as_round (pairs.getD j defaultPair).1 opts
          (pairs.getD j defaultPair).2)) ∧
    (∀ (el : List CandidateId) (l : List Choice) (c : CandidateId),
      (popLoop el l).2 = Choice.Vote c → el.contains c = false) := by
  constructor
  · intro ballots opts pairs hp i j hij hj c hc
    obtain ⟨pairs2, hp2, hne, hhead, hlen, hidx, hmem, hmono, hbig⟩ := tabPairs_spec ballots opts
    have hpe : pairs2 = pairs := by
      rw [hp] at hp2
      exact (Option.some.inj hp2).symm
    rw [hpe] at hmem hmono
    have hcj : c ∈ (pairs.getD j defaultPair).1.eliminated := hmono i j hij hj c hc
    have hpmem : pairs.getD j defaultPair ∈ pairs := by
      rw [List.getD_eq_getElem _ _ hj]
      exact List.getElem_mem hj
    have hWFj := (hmem _ hpmem).1
    have hnone : sortedLookup (Choice.Vote c)
        (pairs.getD j defaultPair).1.candidate_ballots = none := hWFj.2.2 c hcj
    rw [roundAllocatees_as_round]
    intro hmem'
    rcases List.mem_append.mp hmem' with h' | h'
    · rw [List.mem_map] at h'
      obtain ⟨p, hp', hpc⟩ := h'
      have hc' : p.1 = c := Allocatee.Candidate.inj hpc
      have hp'' : (c, p.2) ∈ ((pairs.getD j defaultPair).1.allocations opts
          (pairs.getD j defaultPair).2).votes := by
        rw [← hc']
        exact hp'
      rw [allocations_votes _ _ _ hWFj.1, sortByVotesDesc_mem] at hp''
      obtain ⟨l, hl, _⟩ := votesOf_mem hp''
      exact sortedLookup_ne_none_of_mem hl hnone
    · simp at h'
  · exact fun el l c h => popLoop_allowed el l c h

/-- C6 witness: in the IRV-flip contest, candidate `1` is eliminated going
into round 1 and indeed absent from round 1's allocations. -/
theorem claim_C6_witness :
    Allocatee.Candidate 1 ∉ roundAllocatees
      (TabulatorState.as_round
        (((tabPairs irvFlipBallots defaultOptions).getD []).getD 1 defaultPair).1
        defaultOptions
        (((tabPairs irvFlipBallots defaultOptions).getD []).getD 1 defaultPair).2) :=
  claim_C6.1 irvFlipBallots defaultOptions ((tabPairs irvFlipBallots defaultOptions).getD [])
    (by decide) 1 1 (Nat.le_refl 1) (by decide) 1 (by decide)

theorem contains_congr {l1 l2 : List CandidateId} (h : l1.Perm l2) :
    ∀ c, l1.contains c = l2.contains c := by
  intro c
  by_cases hc : c ∈ l1
  · rw [(contains_true_iff_mem l1 c).mpr hc, ((contains_true_iff_mem l2 c).mpr
      (h.mem_iff.mp hc)).symm]
  · have hc2 : c ∉ l2 := fun h2 => hc (h.mem_iff.mpr h2)
    have e1 : l1.contains c = false := by
      cases he : l1.contains c
      · rfl
      · exact absurd ((contains_true_iff_mem l1 c).mp he) hc
    have e2 : l2.contains c = false := by
      cases he : l2.contains c
      · rfl
      · exact absurd ((contains_true_iff_mem l2 c).mp he) hc2
    rw [e1, e2]

theorem popLoop_congr {el1 el2 : List CandidateId}
    (h : ∀ c, el1.contains c = el2.contains c) :
    ∀ l : List Choice, popLoop el1 l = popLoop el2 l := by
  intro l
  induction l with
  | nil => rfl
  | cons x rest ih =>
    cases hh : rest.headD Choice.Undervote with
    | Vote c =>
      rw [popLoop, popLoop, hh]
      dsimp only
      rw [h c]
      by_cases hc : el2.contains c = true
      · rw [if_pos hc, if_pos hc, ih]
      · rw [if_neg hc, if_neg hc]
    | Undervote =>
      rw [popLoop, popLoop, hh]
    | Overvote =>
      rw [popLoop, popLoop, hh]

theorem foldl_funext {α β : Type} {f1 f2 : α → β → α}
    (h : ∀ a b, f1 a b = f2 a b) : ∀ (l : List β) (init : α),
    l.foldl f1 init = l.foldl f2 init := by
  intro l
  induction l with
  | nil => intro init; rfl
  | cons b rest ih =>
    intro init
    rw [List.foldl_cons, List.foldl_cons, h, ih]

theorem reassignStep_congr {el1 el2 : List CandidateId}
    (h : ∀ c, el1.contains c = el2.contains c) :
    ∀ acc b, reassignStep el1 acc b = reassignStep el2 acc b := by
  intro acc b
  unfold reassignStep popUntil
  rw [popLoop_congr h]

theorem processOne_congr {el1 el2 : List CandidateId}
    (h : ∀ c, el1.contains c = el2.contains c) :
    ∀ cb c, processOne el1 cb c = processOne el2 cb c := by
  intro cb c
  unfold processOne
  cases sortedLookup (Choice.Vote c) cb with
  | none => rfl
  | some ballots =>
    dsimp only
    rw [foldl_funext (reassignStep_congr h)]

theorem elimAccStep_congr {el1 el2 : List CandidateId}
    (h : ∀ c, el1.contains c = el2.contains c) :
    ∀ acc c, elimAccStep el1 acc c = elimAccStep el2 acc c := by
  intro acc c
  unfold elimAccStep
  cases acc with
  | none => rfl
  | some q =>
    dsimp only
    rw [processOne_congr h]

theorem allocations_congr {s1 s2 : TabulatorState}
    (h : s1.candidate_ballots = s2.candidate_ballots) (opts : TabulationOptions) (r : Nat) :
    s1.allocations opts r = s2.allocations opts r := by
  unfold TabulatorState.allocations
  rw [h]

theorem as_round_congr {s1 s2 : TabulatorState}
    (hcb : s1.candidate_ballots = s2.candidate_ballots)
    (htr : s1.transfers = s2.transfers) (opts : TabulationOptions) (r : Nat) :
    s1.as_round opts r = s2.as_round opts r := by
  unfold TabulatorState.as_round
  rw [allocations_congr hcb, hcb, htr]

theorem do_elimination_equiv {s1 s2 : TabulatorState} (opts : TabulationOptions) (r : Nat)
    (h : stateEquiv s1 s2) :
    (s1.do_elimination opts r = none ∧ s2.do_elimination opts r = none) ∨
    ∃ t1 t2, s1.do_elimination opts r = some t1 ∧ s2.do_elimination opts r = some t2 ∧
      stateEquiv t1 t2 := by
  obtain ⟨hcb, htr, hperm⟩ := h
  have halloc := allocations_congr hcb opts r
  set cte := candidates_to_eliminate (s1.allocations opts r) with hcte
  have hcte2 : candidates_to_eliminate (s2.allocations opts r) = cte := by rw [← halloc]
  have hperm' : (s1.eliminated ++ cte).Perm (s2.eliminated ++ cte) :=
    hperm.append (List.Perm.refl cte)
  have hcont : ∀ c, (s1.eliminated ++ cte).contains c = (s2.eliminated ++ cte).contains c :=
    contains_congr hperm'
  have hfold : cte.foldl (elimAccStep (s1.eliminated ++ cte))
        (some (s1.candidate_ballots, ([] : List Transfer))) =
      cte.foldl (elimAccStep (s2.eliminated ++ cte))
        (some (s2.candidate_ballots, ([] : List Transfer))) := by
    rw [hcb, foldl_funext (elimAccStep_congr hcont)]
  have hu1 : s1.do_elimination opts r =
      (match cte.foldl (elimAccStep (s1.eliminated ++ cte))
          (some (s1.candidate_ballots, ([] : List Transfer))) with
        | none => none
        | some q =>
          if transfersGuard q.1 q.2 then
            some ({ candidate_ballots := q.1
                    transfers := sortTransfers q.1 q.2
                    eliminated := s1.eliminated ++ cte } : TabulatorState)
          else none) := rfl
  have hu2 : s2.do_elimination opts r =
      (match cte.foldl (elimAccStep (s2.eliminated ++ cte))
          (some (s2.candidate_ballots, ([] : List Transfer))) with
        | none => none
        | some q =>
          if transfersGuard q.1 q.2 then
            some ({ candidate_ballots := q.1
                    transfers := sortTransfers q.1 q.2
                    eliminated := s2.eliminated ++ cte } : TabulatorState)
          else none) := by
    show s2.do_elimination opts r =
      (match cte.foldl (elimAccStep (s2.eliminated ++ cte))
          (some (s2.candidate_ballots, ([] : List Transfer))) with
        | none => none
        | some q =>
          if transfersGuard q.1 q.2 then
            some ({ candidate_ballots := q.1
                    transfers := sortTransfers q.1 q.2
                    eliminated := s2.eliminated ++ cte } : TabulatorState)
          else none)
    rw [← hcte2]
    rfl
  rw [hu1, hu2, ← hfold]
  cases hstep : cte.foldl (elimAccStep (s1.eliminated ++ cte))
      (some (s1.candidate_ballots, ([] : List Transfer))) with
  | none => exact Or.inl ⟨rfl, rfl⟩
  | some q =>
    dsimp only
    by_cases hg : transfersGuard q.1 q.2 = true
    · rw [if_pos hg, if_pos hg]
      exact Or.inr ⟨_, _, rfl, rfl, ⟨rfl, rfl, hperm'⟩⟩
    · rw [if_neg hg, if_neg hg]
      exact Or.inl ⟨rfl, rfl⟩

/-- C7: the tabulator is deterministic — equal inputs produce equal round
lists (it is a pure function of ballots and options), and in particular the
rounds do not depend on the iteration order of the internal `eliminated`
hash set: running the loop from states differing only by a permutation of
that set yields identical rounds. -/
theorem claim_C7 :
    (∀ (ballots : List NormalizedBallot) (opts : TabulationOptions),
      tabulate ballots opts = tabulate ballots opts) ∧
    ∀ (opts : TabulationOptions) (gas r : Nat) (s1 s2 : TabulatorState), stateEquiv s1 s2 →
      (tabAux opts gas s1 r).map
        (List.map (fun p => TabulatorState.as_round p.1 opts p.2)) =
      (tabAux opts gas s2 r).map
        (List.map (fun p => TabulatorState.as_round p.1 opts p.2)) := by
  refine ⟨fun _ _ => rfl, ?_⟩
  intro opts gas
  induction gas with
  | zero => intro r s1 s2 _; rfl
  | succ gas ih =>
    intro r s1 s2 h
    obtain ⟨hcb, htr, hperm⟩ := h
    have halloc := allocations_congr hcb opts r
    have hu1 : tabAux opts (gas + 1) s1 r =
        (if (s1.allocations opts r).votes.length ≤ 2 then some [(s1, r)]
         else if r ≥ max_rounds then some [(s1, r)]
         else match s1.do_elimination opts r with
           | none => none
           | some s' =>
             match tabAux opts gas s' (r + 1) with
             | none => none
             | some rest => some ((s1, r) :: rest)) := rfl
    have hu2 : tabAux opts (gas + 1) s2 r =
        (if (s2.allocations opts r).votes.length ≤ 2 then some [(s2, r)]
         else if r ≥ max_rounds then some [(s2, r)]
         else match s2.do_elimination opts r with
           | none => none
           | some s' =>
             match tabAux opts gas s' (r + 1) with
             | none => none
             | some rest => some ((s2, r) :: rest)) := rfl
    have hround : TabulatorState.as_round s1 opts r = TabulatorState.as_round s2 opts r :=
      as_round_congr hcb htr opts r
    rw [hu1, hu2, ← halloc]
    by_cases h1 : (s1.allocations opts r).votes.length ≤ 2
    · rw [if_pos h1, if_pos h1]
      simp [hround]
    · rw [if_neg h1, if_neg h1]
      by_cases h2 : r ≥ max_rounds
      · rw [if_pos h2, if_pos h2]
        simp [hround]
      · rw [if_neg h2, if_neg h2]
        rcases do_elimination_equiv opts r ⟨hcb, htr, hperm⟩ with ⟨hn1, hn2⟩ | ⟨t1, t2, he1, he2, hte⟩
        · rw [hn1, hn2]
        · rw [he1, he2]
          dsimp only
          have := ih (r + 1) t1 t2 hte
          cases ht1 : tabAux opts gas t1 (r + 1) with
          | none =>
            rw [ht1] at this
            cases ht2 : tabAux opts gas t2 (r + 1) with
            | none => rfl
            | some rest2 =>
              rw [ht2] at this
              simp at this
          | some rest1 =>
            rw [ht1] at this
            cases ht2 : tabAux opts gas t2 (r + 1) with
            | none =>
              rw [ht2] at this
              simp at this
            | some rest2 =>
              rw [ht2] at this
              simp only [Option.map_some'] at this
              have hmapeq := Option.some.inj this
              dsimp only
              simp only [Option.map_some']
              rw [List.map_cons, List.map_cons, hround, hmapeq]

/-- C7 witness: two loop states differing only in the order of the
`eliminated` hash set produce identical rounds. -/
theorem claim_C7_witness :
    (tabAux defaultOptions 5 ⟨[], [], [1, 2]⟩ 0).map
      (List.map (fun p => TabulatorState.as_round p.1 defaultOptions p.2)) =
    (tabAux defaultOptions 5 ⟨[], [], [2, 1]⟩ 0).map
      (List.map (fun p => TabulatorState.as_round p.1 defaultOptions p.2)) :=
  claim_C7.2 defaultOptions 5 0 ⟨[], [], [1, 2]⟩ ⟨[], [], [2, 1]⟩
    ⟨rfl, rfl, List.Perm.swap 2 1 []⟩

theorem bmapPush_append_gt {k : Choice} {b : NormalizedBallot} :
    ∀ {m : List (Choice × List NormalizedBallot)},
    (∀ e ∈ m, Choice.ltb e.1 k = true) → bmapPush k b m = m ++ [(k, [b])] := by
  intro m
  induction m with
  | nil => intro _; rfl
  | cons e rest ih =>
    intro h
    obtain ⟨k2, l2⟩ := e
    have h2 : Choice.ltb k2 k = true := h (k2, l2) (by simp)
    rw [bmapPush, if_neg (by rw [Choice.ltb_asymm h2]; simp), if_pos h2]
    rw [ih fun e he => h e (List.mem_cons_of_mem _ he)]
    simp

theorem bmapPush_append_skip {k : Choice} {b : NormalizedBallot}
    {l2 : List (Choice × List NormalizedBallot)} :
    ∀ {l1 : List (Choice × List NormalizedBallot)},
    (∀ e ∈ l1, Choice.ltb e.1 k = true) →
    bmapPush k b (l1 ++ l2) = l1 ++ bmapPush k b l2 := by
  intro l1
  induction l1 with
  | nil => intro _; rfl
  | cons e rest ih =>
    intro h
    obtain ⟨k2, v2⟩ := e
    have h2 : Choice.ltb k2 k = true := h (k2, v2) (by simp)
    rw [List.cons_append, bmapPush, if_neg (by rw [Choice.ltb_asymm h2]; simp), if_pos h2]
    rw [ih fun e he => h e (List.mem_cons_of_mem _ he)]
    rfl

theorem sortedRemove_append_right {α β : Type} [DecidableEq α] {k : α}
    {l2 : List (α × β)} : ∀ {l1 : List (α × β)}, (∀ e ∈ l1, e.1 ≠ k) →
    sortedRemove k (l1 ++ l2) = l1 ++ sortedRemove k l2 := by
  intro l1
  induction l1 with
  | nil => intro _; rfl
  | cons e rest ih =>
    intro h
    obtain ⟨k2, v2⟩ := e
    have h2 : k ≠ k2 := fun hk => (h (k2, v2) (by simp)) hk.symm
    rw [List.cons_append, sortedRemove, if_neg h2]
    rw [ih fun e he => h e (List.mem_cons_of_mem _ he)]
    rfl

theorem newcb_tie : ∀ n : Nat,
    (tieBallots n).foldl (fun m b => bmapPush b.top_vote b m) [] =
      (List.range n).map (fun i => (Choice.Vote i, [tieBallot i])) := by
  intro n
  induction n with
  | zero => rfl
  | succ n ih =>
    unfold tieBallots
    rw [List.range_succ, List.map_append, List.foldl_append]
    unfold tieBallots at ih
    rw [ih]
    rw [List.map_cons]
    rw [List.foldl_cons]
    show bmapPush (tieBallot n).top_vote (tieBallot n)
        ((List.range n).map (fun i => (Choice.Vote i, [tieBallot i]))) = _
    have htop : (tieBallot n).top_vote = Choice.Vote n := rfl
    rw [htop, bmapPush_append_gt ?_]
    · rw [List.map_append]
      rfl
    · intro e he
      rw [List.mem_map] at he
      obtain ⟨i, hi, hie⟩ := he
      rw [← hie]
      rw [Choice.ltb_vote_vote]
      simpa using List.mem_range.mp hi

theorem new_tieBallots (n : Nat) : TabulatorState.new (tieBallots n) = tieState n 0 := by
  unfold TabulatorState.new tieState tieCB
  rw [newcb_tie]
  simp

theorem tieCB_sorted (n m : Nat) : cbSorted (tieCB n m) := by
  unfold tieCB cbSorted
  rw [List.pairwise_append]
  refine ⟨?_, ?_, ?_⟩
  · rw [List.pairwise_map]
    refine List.Pairwise.imp ?_ (List.pairwise_lt_range (n - m))
    intro i j hij
    simpa [Choice.ltb_vote_vote] using hij
  · by_cases hm : m = 0
    · rw [if_pos hm]
      simp
    · rw [if_neg hm]
      simp
  · intro e1 he1 e2 he2
    rw [List.mem_map] at he1
    obtain ⟨i, _, hie⟩ := he1
    by_cases hm : m = 0
    · rw [if_pos hm] at he2
      simp at he2
    · rw [if_neg hm] at he2
      simp only [List.mem_singleton] at he2
      rw [← hie, he2]
      rfl

theorem votesOf_tieCB (n m : Nat) :
    votesOf (tieCB n m) = (List.range (n - m)).map (fun i => (i, 1)) := by
  unfold votesOf tieCB
  rw [List.filterMap_append]
  have h1 : ∀ (l : List Nat), ((l.map (fun i => (Choice.Vote i, [tieBallot i]))).filterMap
      (fun e =>
        match e.1 with
        | Choice.Vote c => some (c, e.2.length)
        | _ => none)) = l.map (fun i => (i, 1)) := by
    intro l
    induction l with
    | nil => rfl
    | cons i rest ih =>
      simp only [List.map_cons, List.filterMap_cons]
      rw [ih]
      simp
  rw [h1]
  by_cases hm : m = 0
  · rw [if_pos hm]
    simp
  · rw [if_neg hm]
    simp

theorem sortDesc_const1 : ∀ {l : List (CandidateId × Nat)},
    (∀ p ∈ l, p.2 = 1) → sortByVotesDesc l = l := by
  intro l
  induction l with
  | nil => intro _; rfl
  | cons x xs ih =>
    intro h
    rw [sortByVotesDesc, ih fun p hp => h p (List.mem_cons_of_mem _ hp)]
    cases xs with
    | nil => rfl
    | cons y ys =>
      have hge : x.2 ≥ y.2 := by
        rw [h x (by simp), h y (by simp)]
      rw [insertDesc, if_pos hge]

theorem tie_allocations_votes (n m : Nat) (opts : TabulationOptions) (r : Nat) :
    ((tieState n m).allocations opts r).votes = (List.range (n - m)).map (fun i => (i, 1)) := by
  rw [allocations_votes _ _ _ (tieCB_sorted n m)]
  show sortByVotesDesc (votesOf (tieCB n m)) = _
  rw [votesOf_tieCB, sortDesc_const1 ?_]
  intro p hp
  rw [List.mem_map] at hp
  obtain ⟨i, _, hip⟩ := hp
  rw [← hip]

theorem sumSnd_const1 : ∀ {l : List (CandidateId × Nat)},
    (∀ p ∈ l, p.2 = 1) → (l.map Prod.snd).sum = l.length := by
  intro l
  induction l with
  | nil => intro _; rfl
  | cons x xs ih =>
    intro h
    rw [List.map_cons, List.sum_cons, ih fun p hp => h p (List.mem_cons_of_mem _ hp),
      h x (by simp), List.length_cons]
    omega

theorem elimScan_const1 : ∀ (l : List (CandidateId × Nat)),
    (∀ p ∈ l, p.2 = 1) → ∀ (i rem : Nat), rem = l.length → elimScan l rem i = [] := by
  intro l
  induction l with
  | nil => intro _ i rem _; rfl
  | cons x rest ih =>
    intro h i rem hrem
    obtain ⟨c, v⟩ := x
    have hv : v = 1 := h (c, v) (by simp)
    subst hv
    rw [elimScan]
    have hrem' : rem - 1 = rest.length := by
      rw [hrem, List.length_cons]
      omega
    by_cases hbr : 1 > rem - 1 ∧ i > 0
    · rw [if_pos hbr]
      have : rest.length = 0 := by omega
      exact List.length_eq_zero.mp this
    · rw [if_neg hbr]
      rw [hrem']
      exact ih (fun p hp => h p (List.mem_cons_of_mem _ hp)) (i + 1) rest.length rfl

theorem map_range_getLast (q : Nat) (hq : 1 ≤ q)
    (f : Nat → CandidateId × Nat) :
    ((List.range q).map f).getLast? = some (f (q - 1)) := by
  have h : q = (q - 1) + 1 := by omega
  rw [h, List.range_succ, List.map_append]
  rw [List.map_singleton]
  exact List.getLast?_concat _

theorem cte_tie (n m : Nat) (opts : TabulationOptions) (r : Nat) (h1 : 1 ≤ n - m) :
    candidates_to_eliminate ((tieState n m).allocations opts r) = [n - m - 1] := by
  have hv := tie_allocations_votes n m opts r
  have hconst : ∀ p ∈ ((tieState n m).allocations opts r).votes, p.2 = 1 := by
    intro p hp
    rw [hv, List.mem_map] at hp
    obtain ⟨i, _, hip⟩ := hp
    rw [← hip]
  have hbatch : batch_to_eliminate ((tieState n m).allocations opts r) = [] := by
    unfold batch_to_eliminate
    rw [elimScan_const1 _ hconst 0 _ ?_]
    · rfl
    · show (((tieState n m).allocations opts r).votes.map Prod.snd).sum = _
      exact sumSnd_const1 hconst
  have hne : ((tieState n m).allocations opts r).votes ≠ [] := by
    rw [hv]
    intro hcon
    have := congrArg List.length hcon
    simp at this
    omega
  unfold candidates_to_eliminate
  rw [if_pos ⟨hbatch, hne⟩, hv, map_range_getLast (n - m) h1]

theorem do_elim_tie (n m : Nat) (r : Nat) (h : 2 < n - m) :
    (tieState n m).do_elimination defaultOptions r = some (tieState n (m + 1)) := by
  have hcte := cte_tie n m defaultOptions r (by omega)
  have hlk : sortedLookup (Choice.Vote (n - m - 1)) (tieCB n m) =
      some [tieBallot (n - m - 1)] := by
    refine sortedLookup_eq_some_of_mem (tieCB_sorted n m) ?_
    unfold tieCB
    refine List.mem_append_left _ ?_
    rw [List.mem_map]
    exact ⟨n - m - 1, List.mem_range.mpr (by omega), rfl⟩
  have hrem : sortedRemove (Choice.Vote (n - m - 1)) (tieCB n m) =
      (List.range (n - m - 1)).map (fun i => (Choice.Vote i, [tieBallot i])) ++
        (if m = 0 then [] else [(Choice.Undervote, List.replicate m deadBallot)]) := by
    unfold tieCB
    obtain ⟨q, hq⟩ : ∃ q, n - m = q + 1 := ⟨n - m - 1, by omega⟩
    have hq1 : n - m - 1 = q := by omega
    rw [hq1, hq, List.range_succ, List.map_append, List.map_singleton, List.append_assoc]
    rw [sortedRemove_append_right ?_]
    · simp [sortedRemove]
    · intro e he
      rw [List.mem_map] at he
      obtain ⟨i, hi, hie⟩ := he
      rw [← hie]
      intro hcon
      have hiq : i = q := Choice.Vote.inj hcon
      rw [hiq] at hi
      exact absurd (List.mem_range.mp hi) (by omega)
  have hpush : bmapPush Choice.Undervote deadBallot
      ((List.range (n - m - 1)).map (fun i => (Choice.Vote i, [tieBallot i])) ++
        (if m = 0 then [] else [(Choice.Undervote, List.replicate m deadBallot)])) =
      (List.range (n - m - 1)).map (fun i => (Choice.Vote i, [tieBallot i])) ++
        [(Choice.Undervote, List.replicate (m + 1) deadBallot)] := by
    rw [bmapPush_append_skip ?_]
    · cases m with
      | zero => rfl
      | succ k =>
        rw [if_neg (by omega)]
        rw [show bmapPush Choice.Undervote deadBallot
            [(Choice.Undervote, List.replicate (k + 1) deadBallot)] =
            [(Choice.Undervote, List.replicate (k + 1) deadBallot ++ [deadBallot])] from by
          rw [bmapPush, if_neg (by simp [Choice.ltb_irrefl]),
            if_neg (by simp [Choice.ltb_irrefl])]]
        rw [← List.replicate_succ']
    · intro e he
      rw [List.mem_map] at he
      obtain ⟨i, _, hie⟩ := he
      rw [← hie]
      rfl
  set el := (tieState n m).eliminated ++ [n - m - 1] with helset
  have hpo : processOne el (tieCB n m) (n - m - 1) =
      some ((List.range (n - m - 1)).map (fun i => (Choice.Vote i, [tieBallot i])) ++
          [(Choice.Undervote, List.replicate (m + 1) deadBallot)],
        [(Allocatee.Exhausted, 1)]) := by
    unfold processOne
    rw [hlk]
    show some ([tieBallot (n - m - 1)].foldl (reassignStep el)
      (sortedRemove (Choice.Vote (n - m - 1)) (tieCB n m), [])) = _
    rw [List.foldl_cons, List.foldl_nil]
    rw [show reassignStep el (sortedRemove (Choice.Vote (n - m - 1)) (tieCB n m), [])
        (tieBallot (n - m - 1)) =
        (bmapPush Choice.Undervote deadBallot
          (sortedRemove (Choice.Vote (n - m - 1)) (tieCB n m)),
         [(Allocatee.Exhausted, 1)]) from rfl]
    rw [hrem, hpush]
  have hu : (tieState n m).do_elimination defaultOptions r =
      (match (candidates_to_eliminate
          ((tieState n m).allocations defaultOptions r)).foldl
          (elimAccStep ((tieState n m).eliminated ++
            candidates_to_eliminate ((tieState n m).allocations defaultOptions r)))
          (some ((tieState n m).candidate_ballots, ([] : List Transfer))) with
        | none => none
        | some q =>
          if transfersGuard q.1 q.2 then
            some ({ candidate_ballots := q.1
                    transfers := sortTransfers q.1 q.2
                    eliminated := (tieState n m).eliminated ++
                      candidates_to_eliminate
                        ((tieState n m).allocations defaultOptions r) } : TabulatorState)
          else none) := rfl
  rw [hu, hcte]
  have hcbt : (tieState n m).candidate_ballots = tieCB n m := rfl
  rw [hcbt]
  rw [show ([n - m - 1]).foldl (elimAccStep el) (some (tieCB n m, ([] : List Transfer))) =
      elimAccStep el (some (tieCB n m, [])) (n - m - 1) from rfl]
  rw [show elimAccStep el (some (tieCB n m, [])) (n - m - 1) =
      (match processOne el (tieCB n m) (n - m - 1) with
        | none => none
        | some rr =>
          some (rr.1, rr.2.foldl
            (fun ts p => tsetInsert { from_ := n - m - 1, to_ := p.1, count := p.2 } ts)
            ([] : List Transfer))) from rfl]
  rw [hpo]
  show (if transfersGuard
      ((List.range (n - m - 1)).map (fun i => (Choice.Vote i, [tieBallot i])) ++
        [(Choice.Undervote, List.replicate (m + 1) deadBallot)])
      [{ from_ := n - m - 1, to_ := Allocatee.Exhausted, count := 1 }] then
    some ({ candidate_ballots :=
              (List.range (n - m - 1)).map (fun i => (Choice.Vote i, [tieBallot i])) ++
                [(Choice.Undervote, List.replicate (m + 1) deadBallot)]
            transfers := sortTransfers
              ((List.range (n - m - 1)).map (fun i => (Choice.Vote i, [tieBallot i])) ++
                [(Choice.Undervote, List.replicate (m + 1) deadBallot)])
              [{ from_ := n - m - 1, to_ := Allocatee.Exhausted, count := 1 }]
            eliminated := el } : TabulatorState)
    else none) = some (tieState n (m + 1))
  rw [if_pos (by rfl)]
  have hsub : n - (m + 1) = n - m - 1 := by omega
  have hcb : tieCB n (m + 1) =
      (List.range (n - m - 1)).map (fun i => (Choice.Vote i, [tieBallot i])) ++
        [(Choice.Undervote, List.replicate (m + 1) deadBallot)] := by
    unfold tieCB
    rw [if_neg (by omega), hsub]
  have htrf : (tieState n (m + 1)).transfers =
      [{ from_ := n - m - 1, to_ := Allocatee.Exhausted, count := 1 }] := by
    show (if m + 1 = 0 then [] else
      [({ from_ := n - (m + 1), to_ := Allocatee.Exhausted, count := 1 } : Transfer)]) = _
    rw [if_neg (by omega), hsub]
  have hel : (tieState n (m + 1)).eliminated = el := by
    show (List.range (m + 1)).map (fun j => n - 1 - j) = el
    rw [List.range_succ, List.map_append, List.map_singleton, helset]
    show _ = (List.range m).map (fun j => n - 1 - j) ++ [n - m - 1]
    rw [show n - 1 - m = n - m - 1 from by omega]
  have hsrt : sortTransfers
      ((List.range (n - m - 1)).map (fun i => (Choice.Vote i, [tieBallot i])) ++
        [(Choice.Undervote, List.replicate (m + 1) deadBallot)])
      [{ from_ := n - m - 1, to_ := Allocatee.Exhausted, count := 1 }] =
      [{ from_ := n - m - 1, to_ := Allocatee.Exhausted, count := 1 }] := rfl
  rw [hsrt]
  show some _ = some (tieState n (m + 1))
  refine congrArg some ?_
  show ({ candidate_ballots := _, transfers := _, eliminated := el } : TabulatorState) = _
  rw [show (tieState n (m + 1)) =
    ({ candidate_ballots := tieCB n (m + 1)
       transfers := (tieState n (m + 1)).transfers
       eliminated := (tieState n (m + 1)).eliminated } : TabulatorState) from rfl]
  rw [hcb, htrf, hel]

theorem tabAux_tie : ∀ (gas m : Nat), gas + m = max_rounds + 1 → m ≤ max_rounds →
    ∃ pairs, tabAux defaultOptions gas (tieState 1003 m) m = some pairs ∧
      pairs.length = max_rounds + 1 - m := by
  intro gas
  induction gas with
  | zero =>
    intro m hg hm
    omega
  | succ gas ih =>
    intro m hg hm
    have hmr : max_rounds = 1000 := rfl
    have hunfold : tabAux defaultOptions (gas + 1) (tieState 1003 m) m =
        (if ((tieState 1003 m).allocations defaultOptions m).votes.length ≤ 2 then
          some [(tieState 1003 m, m)]
         else if m ≥ max_rounds then some [(tieState 1003 m, m)]
         else match (tieState 1003 m).do_elimination defaultOptions m with
           | none => none
           | some s2 =>
             match tabAux defaultOptions gas s2 (m + 1) with
             | none => none
             | some rest => some ((tieState 1003 m, m) :: rest)) := rfl
    have hvlen : ((tieState 1003 m).allocations defaultOptions m).votes.length = 1003 - m := by
      rw [tie_allocations_votes, List.length_map, List.length_range]
    have h1 : ¬ ((tieState 1003 m).allocations defaultOptions m).votes.length ≤ 2 := by
      rw [hvlen]
      omega
    rw [hunfold, if_neg h1]
    by_cases h2 : m ≥ max_rounds
    · rw [if_pos h2]
      refine ⟨[(tieState 1003 m, m)], rfl, ?_⟩
      rw [List.length_singleton]
      omega
    · rw [if_neg h2]
      have hmlt : m < 1000 := by omega
      rw [do_elim_tie 1003 m m (by omega)]
      obtain ⟨rest, hrest, hlen⟩ := ih (m + 1) (by omega) (by omega)
      dsimp only
      rw [hrest]
      refine ⟨(tieState 1003 m, m) :: rest, rfl, ?_⟩
      rw [List.length_cons, hlen]
      omega

/-- C3: counterexample to the claimed 1,000-round ceiling.  On an election of
1,003 candidates with one self-vote ballot each (every round a batch-empty tie,
so the fallback eliminates exactly one candidate), `tabulate` returns
1,001 rounds: the loop pushes a round for the current state before testing
`round_number >= max_rounds`, so rounds 0 through 1,000 inclusive are all
emitted, exceeding `max_rounds = 1000`. -/
theorem claim_C3_counterexample :
    (tabulate (tieBallots 1003) defaultOptions).map List.length = some 1001 ∧
      max_rounds < 1001 := by
  constructor
  · obtain ⟨pairs, hp, hlen⟩ := tabAux_tie (max_rounds + 1) 0 (by omega) (by omega)
    unfold tabulate tabPairs
    rw [new_tieBallots, hp]
    simp only [Option.map_some', List.length_map]
    rw [hlen]
    rfl
  · decide

end RcvReport
